import Mathlib

/-!
Verification development for a batch website e-mail scraper (a Flask
application in `app.py`).  The Python source is shallowly embedded below:
pure helpers (`is_valid_url`, `find_emails_on_page`, the CSV row builder,
the download-name check) become Lean functions on `List Char` / `String`;
the crawl loop, the background task runner and the progress-stream
generator become explicit state-passing functions.  External collaborators
(the HTTP client, `urllib.parse`, BeautifulSoup, the filesystem) are
abstracted as function-valued parameters, exactly at the boundaries the
source calls them.
-/

namespace Scraper

/-! ## The e-mail regular expression

The source matches `r"[a-zA-Z0-9._%+-]+@[a-zA-Z0-9.-]+\.[a-zA-Z]{2,}"`
with `re.findall` (leftmost scanning, greedy with backtracking).  The
character classes are ASCII-only, as in Python `re` without `re.UNICODE`
tricks. -/

/-- Characters of the local-part class `[a-zA-Z0-9._%+-]`. -/
def isLocalChar (c : Char) : Bool :=
  c.isAlpha || c.isDigit || c == '.' || c == '_' || c == '%' || c == '+' || c == '-'

/-- Characters of the domain class `[a-zA-Z0-9.-]`. -/
def isDomainChar (c : Char) : Bool :=
  c.isAlpha || c.isDigit || c == '.' || c == '-'

/-- Backtracking search for the split of the maximal domain-class run `w`
demanded by the greedy suffix `\.[a-zA-Z]{2,}` of the regex: the largest
index `j ≥ 1` such that `w[j] = '.'` and the maximal alphabetic run after
it has length at least 2.  Mirrors how the Python engine backtracks the
greedy `[a-zA-Z0-9.-]+` from the right. -/
def findSplit (w : List Char) : Nat → Option (List Char × List Char)
  | 0 => none
  | j + 1 =>
    if w.getD (j + 1) ' ' == '.' then
      let tld := (w.drop (j + 2)).takeWhile Char.isAlpha
      if 2 ≤ tld.length then some (w.take (j + 1), tld) else findSplit w j
    else findSplit w j

/-- Try to match the e-mail regex at the head of `l`.  On success, return
the matched text and the remainder of `l` after the match (Python
`re.findall` resumes scanning there). -/
def matchAt (l : List Char) : Option (List Char × List Char) :=
  let loc := l.takeWhile isLocalChar
  if loc.isEmpty then none
  else
    match l.dropWhile isLocalChar with
    | [] => none
    | c :: r2 =>
      if c == '@' then
        let w := r2.takeWhile isDomainChar
        match findSplit w w.length with
        | some (d, tld) =>
          some (loc ++ '@' :: (d ++ '.' :: tld), r2.drop (d.length + 1 + tld.length))
        | none => none
      else none

/-- One scanning pass of `re.findall`: try a match at every position, left
to right; after a match, continue right after it.  `fuel` bounds the
recursion; `findAll` supplies `l.length`, which is sufficient because each
step consumes at least one character. -/
def findAllAux : Nat → List Char → List (List Char)
  | 0, _ => []
  | _, [] => []
  | fuel + 1, l =>
    match matchAt l with
    | some (m, r) => m :: findAllAux fuel r
    | none => findAllAux fuel l.tail

/-- Model of `re.findall(email_regex, content)`. -/
def findAll (l : List Char) : List (List Char) :=
  findAllAux l.length l

/-! ## Python string helpers used by the filter -/

/-- Model of Python `str.split(sep)` for a single-character separator:
`"a@b".split('@') = ["a", "b"]`, `"".split('@') = [""]`. -/
def pySplit (sep : Char) : List Char → List (List Char)
  | [] => [[]]
  | c :: rest =>
    match pySplit sep rest with
    | [] => [[]]
    | h :: t => if c == sep then [] :: h :: t else (c :: h) :: t

/-- Model of Python `needle in hay` (substring containment). -/
def containsSub (needle hay : List Char) : Bool :=
  (List.range (hay.length + 1)).any (fun i => needle.isPrefixOf (hay.drop i))

/-- Model of Python `str.lower` on one character.  CPython lowercases the
full Unicode range; every character this development ever lowercases that
matters to the claims is ASCII, where the two agree, and this is also
exactly core `Char.toLower`. -/
def lowerChar (c : Char) : Char := c.toLower

/-- The apostrophe character `'` tested by the final filter. -/
def squote : Char := Char.ofNat 39

/-! ## The e-mail filter of `find_emails_on_page` -/

def common_image_extensions : List (List Char) :=
  [".png".toList, ".jpg".toList, ".jpeg".toList, ".gif".toList,
   ".webp".toList, ".svg".toList, ".bmp".toList, ".tiff".toList]

def false_positive_patterns : List (List Char) :=
  ["example.com".toList, "yourdomain.com".toList,
   "email@domain.com".toList, "sentry.io".toList]

/-- The filter conditions of the `for email in emails_found` loop applied
to `email_lower` (src/app.py lines 52-58). -/
def keepLowered (e : List Char) : Option (List Char) :=
  if common_image_extensions.any (fun ext => containsSub ext e) then none
  else if false_positive_patterns.any (fun fp => containsSub fp e) then none
  else if decide (255 < e.length) || e.contains ' ' || (e.count '@' != 1) then none
  else
    let parts := pySplit '@' e
    if decide (parts.length = 2) && (parts.getD 1 []).contains '.' &&
        decide (2 ≤ ((pySplit '.' (parts.getD 1 [])).getLastD []).length) then
      if !((e.headD ' ' == squote) || (e.getLastD ' ' == squote)) then some e
      else none
    else none

/-- The body of the `for email in emails_found` loop of
`find_emails_on_page` (src/app.py lines 50-58): lowercase the candidate
(`email_lower = email.lower()`) and either accept it (`some`) or reject it
(`none`). -/
def keepEmail (email : List Char) : Option (List Char) :=
  keepLowered (email.map lowerChar)

/-- Defined from the words of the claim about redundant filter branches: a
variant of the filter that omits the contains-a-space check, the
exactly-one-at-sign check, the domain-dot and final-label checks, and the
quote check, keeping only the image-extension, placeholder-pattern, and
length filters. -/
def keepLoweredSimplified (e : List Char) : Option (List Char) :=
  if common_image_extensions.any (fun ext => containsSub ext e) then none
  else if false_positive_patterns.any (fun fp => containsSub fp e) then none
  else if decide (255 < e.length) then none
  else some e

def keepEmailSimplified (email : List Char) : Option (List Char) :=
  keepLoweredSimplified (email.map lowerChar)

/-- Model of `find_emails_on_page(url, content)` (src/app.py lines 44-59).
The Python function builds the set `set(re.findall(...))`, filters it, and
returns a set; sets are represented by duplicate-free lists in first-seen
order.  The `url` parameter is unused, exactly as in the source. -/
def find_emails_on_page (url content : List Char) : List (List Char) :=
  let emails_found := (findAll content).dedup
  (emails_found.filterMap keepEmail).dedup

/-- The extractor with the simplified filter of the redundancy claim. -/
def find_emails_simplified (url content : List Char) : List (List Char) :=
  let emails_found := (findAll content).dedup
  (emails_found.filterMap keepEmailSimplified).dedup

/-! ## External collaborators of the crawl engine

`urlparse`, `urljoin`, and the fetch-and-parse pipeline
(`requests.get` + `BeautifulSoup`) are external libraries; they are
abstracted as an environment of function parameters.  A fetch returning
`none` stands for any exception raised inside the per-page `try` block
(network error, HTTP error status, parse failure). -/

/-- The fields of `urllib.parse.urlparse` that the source reads. -/
structure ParseResult where
  scheme : String
  netloc : String
deriving DecidableEq

/-- An `<a href=...>` element as BeautifulSoup exposes it: its `href`
attribute and its visible text (`link.get_text`). -/
structure Anchor where
  href : String
  text : String
deriving DecidableEq

/-- A successfully fetched and parsed page: its visible text
(`soup.get_text(separator=' ')`) and its anchor elements. -/
structure Page where
  text : List Char
  anchors : List Anchor
deriving DecidableEq

/-- The abstracted external world of one crawl. -/
structure Env where
  urlparse : String → ParseResult
  fetch : String → Option Page
  urljoin : String → String → String

/-- Model of `is_valid_url` (src/app.py lines 40-42):
`bool(parsed.scheme) and bool(parsed.netloc) and parsed.scheme not in
['mailto', 'tel']`. -/
def is_valid_url (env : Env) (url : String) : Bool :=
  let parsed := env.urlparse url
  !(parsed.scheme == "") && !(parsed.netloc == "") &&
    !(parsed.scheme == "mailto") && !(parsed.scheme == "tel")

/-! ## mailto extraction (src/app.py lines 93-100) -/

/-- Model of Python `str.split(sep)` for a non-empty multi-character
separator, by repeatedly cutting at the first occurrence.  `fuel` bounds
the recursion; the wrapper supplies enough. -/
def splitSubAux (sep : List Char) : Nat → List Char → List (List Char)
  | 0, l => [l]
  | fuel + 1, l =>
    match (List.range (l.length + 1)).find? (fun i => sep.isPrefixOf (l.drop i)) with
    | none => [l]
    | some i => l.take i :: splitSubAux sep fuel (l.drop (i + sep.length))

/-- Model of Python `str.split(sep)` for a non-empty separator. -/
def splitSub (sep l : List Char) : List (List Char) :=
  splitSubAux sep (l.length + 1) l

def mailtoSep : List Char := "mailto:".toList

/-- Model of `href.split('mailto:')[1].split('?')[0]` guarded by the
`except IndexError` handler: `none` is the `IndexError` outcome (the list
produced by the first split has no index 1). -/
def mailtoToken (href : List Char) : Option (List Char) :=
  match (splitSub mailtoSep href).get? 1 with
  | none => none
  | some s => some ((pySplit '?' s).headD [])

/-- One anchor of the page-text construction loop (src/app.py lines
93-100): when the href starts with `mailto:`, append a space and the
extracted address to the text; on `IndexError` record a warning line
instead. -/
def mailtoStep (current_url : String) (acc : List Char × List String)
    (a : Anchor) : List Char × List String :=
  let href := a.href.toList
  if mailtoSep.isPrefixOf href then
    match mailtoToken href with
    | some email_in_mailto => (acc.1 ++ ' ' :: email_in_mailto, acc.2)
    | none =>
      (acc.1, acc.2 ++ [s!"Warning: Malformed mailto link on {current_url}: {a.href}"])
  else acc

/-- Model of the page-text construction loop (src/app.py lines 92-100):
start from the soup text and process every anchor.  Returns the final
text and the warning lines in order. -/
def buildPageText (current_url : String) (page : Page) : List Char × List String :=
  page.anchors.foldl (mailtoStep current_url) (page.text, [])

/-! ## The crawl engine `scrape_website_emails_for_task`
(src/app.py lines 61-128) -/

def TARGET_PAGE_KEYWORDS : List (List Char) :=
  ["about".toList, "contact".toList, "support".toList,
   "contact-us".toList, "about-us".toList, "contactus".toList, "aboutus".toList]

def MAX_DEPTH : Nat := 1

/-- Python `str.lower` on a whole string, as a character list. -/
def lowerStr (s : String) : List Char := s.toList.map lowerChar

/-- Union of two duplicate-free lists representing sets
(`emails_collected.update(emails_on_page)`). -/
def listUnion (a b : List (List Char)) : List (List Char) :=
  a ++ b.filter (fun e => !a.contains e)

/-- The ephemeral state of one crawl invocation: `visited_urls` (kept in
visit order, so that the visit sequence is the list itself), the
`urls_to_visit` FIFO frontier of `(address, depth)` pairs, the
`emails_collected` set, and the progress log the invocation appends via
`log_progress`. -/
structure CrawlState where
  visited : List String
  frontier : List (String × Nat)
  collected : List (List Char)
  log : List String
deriving DecidableEq

/-- The body of the link-discovery `for link in soup.find_all('a',
href=True)` loop (src/app.py lines 110-123) applied to one anchor:
`acc` carries the frontier (`urls_to_visit`), the queued-page log lines,
and the `found_target_page_on_current` flag. -/
def discoverStep (env : Env) (base_domain : String) (visited : List String)
    (current_url : String) (depth : Nat)
    (acc : List (String × Nat) × List String × Bool) (link : Anchor) :
    List (String × Nat) × List String × Bool :=
  if link.href == "" then acc
  else
    let href_attr_lower := lowerStr link.href
    let link_text_lower := lowerStr link.text
    let is_target_link := TARGET_PAGE_KEYWORDS.any
      (fun kw => containsSub kw href_attr_lower || containsSub kw link_text_lower)
    if is_target_link then
      let next_url := env.urljoin current_url link.href
      if (env.urlparse next_url).netloc == base_domain &&
          !(visited.contains next_url) && is_valid_url env next_url &&
          !((acc.1.map Prod.fst).contains next_url) then
        (acc.1 ++ [(next_url, depth + 1)],
         acc.2.1 ++ [s!"    Queued target page: {next_url}"], true)
      else acc
    else acc

/-- The whole link-discovery loop. -/
def discoverLinks (env : Env) (base_domain : String) (visited : List String)
    (current_url : String) (depth : Nat) (anchors : List Anchor)
    (frontier0 : List (String × Nat)) : List (String × Nat) × List String × Bool :=
  anchors.foldl (discoverStep env base_domain visited current_url depth)
    (frontier0, [], false)

/-- The successfully-fetched part of one loop iteration (src/app.py lines
91-125): build the page text, harvest e-mails, and run link discovery when
at depth 0 with a positive hop limit.  `log1` is the log up to and
including the `Scraping (...)` line; `visited1` already includes the
current address. -/
def crawlPage (env : Env) (max_depth_setting : Nat) (base_domain : String)
    (st : CrawlState) (current_url : String) (current_processing_depth : Nat)
    (rest : List (String × Nat)) (visited1 : List String) (log1 : List String)
    (page : Page) : CrawlState :=
  let tw := buildPageText current_url page
  let log2 := log1 ++ tw.2
  let emails_on_page := find_emails_on_page current_url.toList tw.1
  let log3 := if emails_on_page.isEmpty then log2
    else log2 ++ [s!"  Found emails on {current_url}"]
  let collected2 := listUnion st.collected emails_on_page
  if decide (1 ≤ max_depth_setting) && (current_processing_depth == 0) then
    let log4 := log3 ++ [s!"  Searching for target pages on {current_url}..."]
    let dl := discoverLinks env base_domain visited1 current_url
      current_processing_depth page.anchors rest
    let log5 := log4 ++ dl.2.1
    let log6 := if dl.2.2 then log5
      else log5 ++ [s!"  No new target pages found or queued from {current_url}."]
    { visited := visited1, frontier := dl.1, collected := collected2, log := log6 }
  else
    { visited := visited1, frontier := rest, collected := collected2, log := log3 }

/-- The visit part of one loop iteration (src/app.py lines 83-127): mark
visited, log the page type, fetch, then process the page (or log the
per-page error on a failed fetch). -/
def crawlVisit (env : Env) (max_depth_setting : Nat) (base_domain : String)
    (st : CrawlState) (current_url : String) (current_processing_depth : Nat)
    (rest : List (String × Nat)) : CrawlState :=
  let visited1 := st.visited ++ [current_url]
  let page_type := if current_processing_depth == 0 then "Homepage" else "Target Page"
  let log1 := st.log ++ [s!"Scraping ({page_type}): {current_url}"]
  match env.fetch current_url with
  | none =>
    { visited := visited1, frontier := rest, collected := st.collected,
      log := log1 ++ [s!"  Error scraping {current_url}"] }
  | some page =>
    crawlPage env max_depth_setting base_domain st current_url
      current_processing_depth rest visited1 log1 page

/-- One iteration of the `while urls_to_visit` loop (src/app.py lines
78-127).  On an empty frontier the state is returned unchanged (the loop
has ended). -/
def crawlStep (env : Env) (max_depth_setting : Nat) (base_domain : String)
    (st : CrawlState) : CrawlState :=
  match st.frontier with
  | [] => st
  | (current_url, current_processing_depth) :: rest =>
    if st.visited.contains current_url || !is_valid_url env current_url then
      { st with frontier := rest }
    else if !((env.urlparse current_url).netloc == base_domain) then
      { st with frontier := rest }
    else
      crawlVisit env max_depth_setting base_domain st current_url
        current_processing_depth rest

/-- The `while urls_to_visit` loop, run for at most `fuel` iterations.
Every claim about the loop is an invariant or holds for every sufficiently
large `fuel`, so the bound only needs to be large enough. -/
def crawlLoop (env : Env) (max_depth_setting : Nat) (base_domain : String) :
    Nat → CrawlState → CrawlState
  | 0, st => st
  | fuel + 1, st =>
    match st.frontier with
    | [] => st
    | _ :: _ =>
      crawlLoop env max_depth_setting base_domain fuel
        (crawlStep env max_depth_setting base_domain st)

/-- The state of a crawl just before the loop starts (src/app.py lines
71-76): nothing visited, the seed at depth 0 in the frontier, no emails,
the initial progress line. -/
def initState (base_url : String) (max_depth_setting : Nat) : CrawlState :=
  { visited := [], frontier := [(base_url, 0)], collected := [],
    log := [s!"Starting scrape for: {base_url} with depth {max_depth_setting}"] }

/-- Model of `scrape_website_emails_for_task` returning the whole final
crawl state (the Python function returns only `emails_collected`; the
other fields are exposed for the statements about visiting). -/
def scrape_core (env : Env) (base_url : String) (max_depth_setting fuel : Nat) :
    CrawlState :=
  let base_domain := (env.urlparse base_url).netloc
  crawlLoop env max_depth_setting base_domain fuel (initState base_url max_depth_setting)

/-- Model of `scrape_website_emails_for_task` (src/app.py lines 61-128):
reject an invalid base URL immediately with the empty set, otherwise run
the crawl loop and return the collected e-mail set. -/
def scrape_website_emails_for_task (env : Env) (base_url : String)
    (max_depth_setting fuel : Nat) : List (List Char) :=
  if !is_valid_url env base_url then []
  else (scrape_core env base_url max_depth_setting fuel).collected

/-! ## Task records and the task runner (src/app.py lines 142-190, 216-229) -/

inductive TaskStatus
  | pending
  | processing
  | complete
  | error
deriving DecidableEq

/-- One entry of the `tasks` dictionary. -/
structure TaskRecord where
  status : TaskStatus
  urls : List String
  progress_messages : List String
  filename : Option String
  error_message : Option String
deriving DecidableEq

/-- The record as `request_scrape` creates it (src/app.py lines 217-225). -/
def newTask (websites : List String) : TaskRecord :=
  { status := .pending, urls := websites,
    progress_messages := ["Task initiated."], filename := none, error_message := none }

/-- Lexicographic comparison of character lists: the order Python `sorted`
uses on strings (code-point order). -/
def lexLe : List Char → List Char → Bool
  | [], _ => true
  | _ :: _, [] => false
  | a :: as, b :: bs => if a == b then lexLe as bs else decide (a < b)

def insertLe (x : List Char) : List (List Char) → List (List Char)
  | [] => [x]
  | y :: ys => if lexLe x y then x :: y :: ys else y :: insertLe x ys

/-- Model of Python `sorted` on a list of strings (insertion sort by
`lexLe`). -/
def sortLe : List (List Char) → List (List Char)
  | [] => []
  | x :: xs => insertLe x (sortLe xs)

/-- Model of `", ".join(sorted(list(emails_found_for_site)))`
(src/app.py line 159). -/
def emailsString (emails : List (List Char)) : String :=
  String.intercalate ", " ((sortLe emails).map fun e => String.mk e)

def NO_EMAILS_SENTINEL : String := "NO_EMAILS_FOUND_OR_ERROR"

/-- The per-site row text: the sorted comma-joined e-mails when the crawl
returned a non-empty set, the sentinel otherwise (src/app.py lines
157-163). -/
def rowText (env : Env) (fuel : Nat) (website_url : String) : String :=
  let emails_found_for_site :=
    scrape_website_emails_for_task env website_url MAX_DEPTH fuel
  if !emails_found_for_site.isEmpty then emailsString emails_found_for_site
  else NO_EMAILS_SENTINEL

/-- The `for i, website_url in enumerate(websites_to_process)` loop
(src/app.py lines 152-164) accumulating `all_scraped_data_consolidated`. -/
def processSites (env : Env) (fuel : Nat) (websites : List String) :
    List (String × String) :=
  websites.foldl
    (fun acc website_url => acc ++ [(website_url, rowText env fuel website_url)])
    []

/-- The CSV artifact as the external `csv.writer` receives it: the header
row, then one row per processed site (src/app.py lines 170-174). -/
def writeCsv (rows : List (String × String)) : List (List String) :=
  [["Website", "Emails Found"]] ++ rows.map (fun r => [r.1, r.2])

/-- Model of `run_scraping_task_thread` (src/app.py lines 142-190).
`exc` abstracts an exception escaping the whole batch run: `some e` means
the body raised with description `e` and control reached the `except`
handler; `none` is the exception-free run.  Returns the final task record
and the artifact handed to the CSV writer (`none` when no artifact was
written). -/
def run_scraping_task_thread (env : Env) (fuel : Nat) (task_id : String)
    (task : TaskRecord) (websites_to_process : List String) (exc : Option String) :
    TaskRecord × Option (List (List String)) :=
  match exc with
  | some e =>
    ({ task with
        status := .error
        error_message := some e
        progress_messages := task.progress_messages ++
          [s!"A critical error occurred: {e}"] }, none)
  | none =>
    let task1 := { task with status := .processing }
    let rows := processSites env fuel websites_to_process
    let csv := writeCsv rows
    let csv_filename := s!"scraped_emails_{task_id}.csv"
    ({ task1 with
        status := .complete
        filename := some csv_filename
        progress_messages := task1.progress_messages ++
          [s!"Scraping complete. Results saved to server: {csv_filename}"] },
     some csv)

/-! ## The progress stream (src/app.py lines 233-263) -/

/-- The events the SSE generator can yield: a log line
(`data: {msg}`), the three terminal events, or nothing further. -/
inductive StreamEvent
  | data (msg : String)
  | completeEvt (filename : String)
  | errorEvt (msg : String)
  | notFound (task_id : String)
deriving DecidableEq

/-- Model of the `generate()` polling loop of `progress_stream`.  The
observer's connection sees a sequence of snapshots of the task record
(one per `time.sleep(0.5)` round trip, `none` when the task id is absent
from `tasks`); `last_sent_idx` is the connection-local cursor starting at
`-1`.  The returned list is every event yielded while the supplied
snapshots last; the generator stops early at a terminal event. -/
def progress_stream (task_id : String) :
    List (Option TaskRecord) → Int → List StreamEvent
  | [], _ => []
  | none :: _, _ => [.notFound task_id]
  | some current_task :: rest, last_sent_idx =>
    let new_messages := current_task.progress_messages.drop (last_sent_idx + 1).toNat
    let evts := new_messages.map StreamEvent.data
    if current_task.status = .complete then
      evts ++ [.completeEvt (current_task.filename.getD "")]
    else if current_task.status = .error then
      evts ++ [.errorEvt (current_task.error_message.getD "An unknown error occurred.")]
    else
      evts ++ progress_stream task_id rest (last_sent_idx + new_messages.length)

/-- The log lines carried by the `data:` events of a stream, in order. -/
def dataPayloads (evts : List StreamEvent) : List String :=
  evts.filterMap (fun e => match e with | .data msg => some msg | _ => none)

/-! ## The download endpoint (src/app.py lines 265-274) -/

inductive DownloadResult
  | invalidFilename
  | notFoundResp
  | sendFile (path : String)
deriving DecidableEq

def TEMP_DIR : String := "temp_files"

/-- Model of `download_file`.  `isfile` abstracts the filesystem query
`os.path.isfile`; the name checks run before any filesystem access, which
the embedding makes visible by consulting `isfile` only after them. -/
def download_file (isfile : String → Bool) (filename : String) : DownloadResult :=
  if containsSub "..".toList filename.toList || "/".toList.isPrefixOf filename.toList then
    .invalidFilename
  else
    let file_path := TEMP_DIR ++ "/" ++ filename
    if !isfile file_path then .notFoundResp
    else .sendFile file_path

/-- A filename contains a parent-directory path segment: some `/`-separated
component equals `..`. -/
def hasParentSegment (filename : String) : Bool :=
  (pySplit '/' filename.toList).contains "..".toList

/-! ## Statement vocabulary

Shape predicates used by the statements and proofs below. -/

/-- The structural shape of every string the e-mail regex can match. -/
def EmailShape (m : List Char) : Prop :=
  ∃ loc d tld, m = loc ++ '@' :: (d ++ '.' :: tld) ∧ loc ≠ [] ∧
    (∀ c ∈ loc, isLocalChar c = true) ∧ (∀ c ∈ d, isDomainChar c = true) ∧
    (∀ c ∈ tld, c.isAlpha = true) ∧ 2 ≤ tld.length

/-- The character-level consequences of `EmailShape` after lowercasing. -/
def LoweredShape (e : List Char) : Prop :=
  ∃ loc d tld, e = loc ++ '@' :: (d ++ '.' :: tld) ∧ loc ≠ [] ∧
    (∀ c ∈ loc, c ≠ '@' ∧ c ≠ ' ' ∧ c ≠ squote) ∧
    (∀ c ∈ d, c ≠ '@' ∧ c ≠ ' ') ∧
    (∀ c ∈ tld, c ≠ '@' ∧ c ≠ ' ' ∧ c ≠ '.' ∧ c ≠ squote) ∧ 2 ≤ tld.length

/-- A prefix chain of records: each snapshot's log extends the previous
snapshot's log (the Task Store only ever appends). -/
def MsgChain (snaps : List TaskRecord) : Prop :=
  List.Chain' (fun a b => a.progress_messages <+: b.progress_messages) snaps

/-! ## Concrete fixtures

A small concrete world used to instantiate the universally quantified
statements at explicit inputs: two pages on `a.com`, the seed linking to
an about page, which links further to a contact page that the 1-hop crawl
must never enqueue. -/

def wParse : String → ParseResult := fun s =>
  if s == "http://a.com" || s == "http://a.com/about" then ⟨"http", "a.com"⟩
  else ⟨"", ""⟩

def wPageSeed : Page := ⟨"hi c@a.com".toList, [⟨"/about", "About"⟩]⟩

def wPageAbout : Page := ⟨"d@a.com".toList, [⟨"/contact", "x"⟩]⟩

def wFetch : String → Option Page := fun s =>
  if s == "http://a.com" then some wPageSeed
  else if s == "http://a.com/about" then some wPageAbout
  else none

def wJoin : String → String → String := fun _ h =>
  if h == "/about" then "http://a.com/about" else "http://x.com"

def wEnv : Env := ⟨wParse, wFetch, wJoin⟩

/-- A default record, used only as the `getLastD`/`headD` fallback in
statements about non-empty snapshot sequences. -/
def emptyRecord : TaskRecord :=
  { status := .pending, urls := [], progress_messages := [],
    filename := none, error_message := none }

/-- A processing-status record mid-run, for the stream statements. -/
def wRec1 : TaskRecord :=
  { status := .processing, urls := [], progress_messages := ["m0", "m1"],
    filename := none, error_message := none }

/-- A completed record extending the log of `wRec1`. -/
def wRec2 : TaskRecord :=
  { status := .complete, urls := [], progress_messages := ["m0", "m1", "m2"],
    filename := some "f.csv", error_message := none }

/-! ## Helper lemmas about characters -/

theorem toNat_ofNat_of_lt {n : Nat} (h : n < 55296) : (Char.ofNat n).toNat = n := by
  have hv : n.isValidChar := Or.inl h
  simp only [Char.ofNat, hv, dite_true, Char.ofNatAux, Char.toNat, UInt32.toNat]
  simp [BitVec.ofNatLt]

theorem lowerChar_spec (c : Char) :
    lowerChar c = c ∨
      (65 ≤ c.toNat ∧ c.toNat ≤ 90 ∧ (lowerChar c).toNat = c.toNat + 32) := by
  have hunfold : lowerChar c =
      if c.toNat ≥ 65 ∧ c.toNat ≤ 90 then Char.ofNat (c.toNat + 32) else c := rfl
  by_cases h : c.toNat ≥ 65 ∧ c.toNat ≤ 90
  · rw [hunfold, if_pos h]
    exact Or.inr ⟨h.1, h.2, toNat_ofNat_of_lt (by omega)⟩
  · rw [hunfold, if_neg h]
    exact Or.inl rfl

/-- Lowercasing never produces a character with code point below 65 unless
the input already was that character. -/
theorem lowerChar_ne_low {c t : Char} (ht : t.toNat < 65) (hct : c ≠ t) :
    lowerChar c ≠ t := by
  rcases lowerChar_spec c with h | ⟨h1, _, h3⟩
  · rw [h]; exact hct
  · intro he
    rw [he] at h3
    omega

theorem ne_of_true_of_false {P : Char → Bool} {c t : Char}
    (hc : P c = true) (ht : P t = false) : c ≠ t := by
  intro he
  rw [he, ht] at hc
  cases hc

/-- A character of a class that excludes `t` (with `t` below code point
65) never lowercases to `t`. -/
theorem class_lower_ne {P : Char → Bool} {c t : Char}
    (hc : P c = true) (ht : P t = false) (htlt : t.toNat < 65) :
    lowerChar c ≠ t :=
  lowerChar_ne_low htlt (ne_of_true_of_false hc ht)

/-! ## Helper lemmas about lists -/

theorem isPrefixOf_true_iff {l₁ l₂ : List Char} :
    l₁.isPrefixOf l₂ = true ↔ l₁ <+: l₂ :=
  List.isPrefixOf_iff_prefix

theorem contains_eq_false_of {α : Type} [BEq α] [LawfulBEq α] {a : α} {l : List α}
    (h : a ∉ l) : l.contains a = false := by
  simp [List.contains, h]

theorem contains_eq_true_of {α : Type} [BEq α] [LawfulBEq α] {a : α} {l : List α}
    (h : a ∈ l) : l.contains a = true := by
  simp [List.contains, h]

theorem mem_of_contains {α : Type} [BEq α] [LawfulBEq α] {a : α} {l : List α}
    (h : l.contains a = true) : a ∈ l := by
  simpa [List.contains] using h

theorem getLastD_cons_of_ne_nil {α : Type} {l : List α} (x d : α) (h : l ≠ []) :
    (x :: l).getLastD d = l.getLastD d := by
  cases l with
  | nil => exact absurd rfl h
  | cons y ys => rfl

theorem getLastD_irrel {α : Type} {l : List α} (d d' : α) (h : l ≠ []) :
    l.getLastD d = l.getLastD d' := by
  induction l generalizing d d' with
  | nil => exact absurd rfl h
  | cons x xs ih =>
    cases xs with
    | nil => rfl
    | cons y ys =>
      rw [getLastD_cons_of_ne_nil x d (by simp), getLastD_cons_of_ne_nil x d' (by simp)]
      exact ih d d' (by simp)

theorem getLastD_append_right {α : Type} {a b : List α} (d : α) (h : b ≠ []) :
    (a ++ b).getLastD d = b.getLastD d := by
  induction a with
  | nil => rfl
  | cons x xs ih =>
    have hne : xs ++ b ≠ [] := by
      simp only [ne_eq, List.append_eq_nil]
      rintro ⟨-, hb⟩
      exact h hb
    rw [List.cons_append, getLastD_cons_of_ne_nil x d hne]
    exact ih

theorem getLastD_mem {α : Type} {l : List α} (d : α) (h : l ≠ []) :
    l.getLastD d ∈ l := by
  induction l with
  | nil => exact absurd rfl h
  | cons x xs ih =>
    cases xs with
    | nil => simp [List.getLastD]
    | cons y ys =>
      rw [getLastD_cons_of_ne_nil x d (by simp)]
      exact List.mem_cons_of_mem x (ih (by simp))

/-! ## Small facts about the sublist orders -/

theorem preNil {α : Type} (l : List α) : ([] : List α) <+: l := ⟨l, rfl⟩

theorem preConsCons {α : Type} {a b : List α} (c : α) (h : a <+: b) :
    c :: a <+: c :: b := by
  obtain ⟨t, rfl⟩ := h
  exact ⟨t, rfl⟩

theorem infOfPre {α : Type} {a b : List α} (h : a <+: b) : a <:+: b := by
  obtain ⟨t, rfl⟩ := h
  exact ⟨[], t, by simp⟩

theorem infConsRight {α : Type} {a l : List α} (c : α) (h : a <:+: l) :
    a <:+: c :: l := by
  obtain ⟨s, t, rfl⟩ := h
  exact ⟨c :: s, t, by simp⟩

/-! ## Lemmas about `pySplit` (the model of Python single-character
`str.split`) -/

theorem pySplit_cons (sep c : Char) (rest : List Char) :
    pySplit sep (c :: rest) =
      match pySplit sep rest with
      | [] => [[]]
      | h :: t => if c == sep then [] :: h :: t else (c :: h) :: t := rfl

theorem pySplit_ne_nil (sep : Char) (l : List Char) : pySplit sep l ≠ [] := by
  cases l with
  | nil => simp [pySplit]
  | cons c rest =>
    rw [pySplit_cons]
    cases hpr : pySplit sep rest with
    | nil => simp
    | cons h t =>
      show (if c == sep then [] :: h :: t else (c :: h) :: t) ≠ []
      split <;> simp

theorem pySplit_destruct (sep : Char) (l : List Char) :
    ∃ h t, pySplit sep l = h :: t := by
  cases hp : pySplit sep l with
  | nil => exact absurd hp (pySplit_ne_nil sep l)
  | cons x y => exact ⟨x, y, rfl⟩

theorem pySplit_no_sep {sep : Char} {b : List Char} (h : sep ∉ b) :
    pySplit sep b = [b] := by
  induction b with
  | nil => rfl
  | cons c rest ih =>
    have hc : c ≠ sep := fun he => h (he ▸ List.mem_cons_self c rest)
    have hrest : sep ∉ rest := fun hm => h (List.mem_cons_of_mem _ hm)
    rw [pySplit_cons, ih hrest]
    show (if c == sep then [] :: rest :: [] else (c :: rest) :: []) = [c :: rest]
    rw [if_neg (by simp [hc])]

theorem pySplit_sepCons {sep : Char} {a : List Char} (ha : sep ∉ a) (b : List Char) :
    pySplit sep (a ++ sep :: b) = a :: pySplit sep b := by
  induction a with
  | nil =>
    obtain ⟨h, t, hht⟩ := pySplit_destruct sep b
    rw [List.nil_append, pySplit_cons, hht]
    show (if sep == sep then [] :: h :: t else (sep :: h) :: t) = [] :: h :: t
    rw [if_pos (by simp)]
  | cons c a' ih =>
    have hc : c ≠ sep := fun he => ha (he ▸ List.mem_cons_self c a')
    have ha' : sep ∉ a' := fun hm => ha (List.mem_cons_of_mem _ hm)
    obtain ⟨h, t, hht⟩ := pySplit_destruct sep (a' ++ sep :: b)
    have hih := ih ha'
    rw [hht] at hih
    rw [List.cons_append, pySplit_cons, hht]
    show (if c == sep then [] :: h :: t else (c :: h) :: t) = (c :: a') :: pySplit sep b
    rw [if_neg (by simp [hc])]
    injection hih with h1 h2
    rw [h1, h2]

theorem pySplit_two_le (sep : Char) (a b : List Char) :
    2 ≤ (pySplit sep (a ++ sep :: b)).length := by
  induction a with
  | nil =>
    obtain ⟨h, t, hht⟩ := pySplit_destruct sep b
    rw [List.nil_append, pySplit_cons, hht]
    show 2 ≤ (if sep == sep then [] :: h :: t else (sep :: h) :: t).length
    rw [if_pos (by simp)]
    simp
  | cons c a' ih =>
    obtain ⟨h, t, hht⟩ := pySplit_destruct sep (a' ++ sep :: b)
    rw [hht] at ih
    rw [List.cons_append, pySplit_cons, hht]
    show 2 ≤ (if c == sep then [] :: h :: t else (c :: h) :: t).length
    split
    · simp
    · simp only [List.length_cons] at ih ⊢
      omega

theorem pySplit_getLastD {sep : Char} {b : List Char} (hb : sep ∉ b) (a : List Char) :
    (pySplit sep (a ++ sep :: b)).getLastD [] = b := by
  induction a with
  | nil =>
    show (pySplit sep (sep :: b)).getLastD [] = b
    rw [pySplit_cons, pySplit_no_sep hb]
    show (if sep == sep then [] :: b :: [] else (sep :: b) :: []).getLastD [] = b
    rw [if_pos (by simp)]
    rw [getLastD_cons_of_ne_nil _ _ (by simp)]
    rfl
  | cons c a' ih =>
    obtain ⟨h, t, hht⟩ := pySplit_destruct sep (a' ++ sep :: b)
    have hlen : 2 ≤ (pySplit sep (a' ++ sep :: b)).length := pySplit_two_le sep a' b
    rw [hht] at hlen
    have ht_ne : t ≠ [] := by
      intro hte
      rw [hte] at hlen
      simp at hlen
    rw [hht, getLastD_cons_of_ne_nil _ _ ht_ne] at ih
    rw [List.cons_append, pySplit_cons, hht]
    show (if c == sep then [] :: h :: t else (c :: h) :: t).getLastD [] = b
    split
    · rw [getLastD_cons_of_ne_nil _ _ (by simp), getLastD_cons_of_ne_nil _ _ ht_ne]
      exact ih
    · rw [getLastD_cons_of_ne_nil _ _ ht_ne]
      exact ih

/-- Every piece produced by `pySplit` occurs inside the original list. -/
theorem pySplit_shape (sep : Char) (l : List Char) :
    ∃ h t, pySplit sep l = h :: t ∧ h <+: l ∧ ∀ x ∈ t, x <:+: l := by
  induction l with
  | nil => exact ⟨[], [], rfl, preNil [], by simp⟩
  | cons c rest ih =>
    obtain ⟨h, t, hht, hpre, hinf⟩ := ih
    by_cases hc : (c == sep) = true
    · have hred : pySplit sep (c :: rest) = [] :: h :: t := by
        rw [pySplit_cons, hht]
        show (if c == sep then [] :: h :: t else (c :: h) :: t) = [] :: h :: t
        rw [if_pos hc]
      refine ⟨[], h :: t, hred, preNil _, ?_⟩
      intro x hx
      rcases List.mem_cons.mp hx with rfl | hx
      · exact infConsRight c (infOfPre hpre)
      · exact infConsRight c (hinf x hx)
    · have hred : pySplit sep (c :: rest) = (c :: h) :: t := by
        rw [pySplit_cons, hht]
        show (if c == sep then [] :: h :: t else (c :: h) :: t) = (c :: h) :: t
        rw [if_neg hc]
      refine ⟨c :: h, t, hred, preConsCons c hpre, ?_⟩
      intro x hx
      exact infConsRight c (hinf x hx)

theorem mem_pySplit_inf {sep : Char} {l x : List Char}
    (hx : x ∈ pySplit sep l) : x <:+: l := by
  obtain ⟨h, t, hht, hpre, hinf⟩ := pySplit_shape sep l
  rw [hht] at hx
  rcases List.mem_cons.mp hx with rfl | hx
  · exact infOfPre hpre
  · exact hinf x hx

/-! ## Shape of a regex match

Every string produced by `findAll` decomposes as
`local ++ '@' :: (domain ++ '.' :: tld)` with the advertised character
classes.  This is the structural fact behind the redundancy of several
filter branches of `find_emails_on_page`. -/

theorem findSplit_shape {w : List Char} (hw : ∀ c ∈ w, isDomainChar c = true) :
    ∀ j d tld, findSplit w j = some (d, tld) →
      (∀ c ∈ d, isDomainChar c = true) ∧ (∀ c ∈ tld, c.isAlpha = true) ∧
        2 ≤ tld.length := by
  intro j
  induction j with
  | zero => intro d tld h; cases h
  | succ j ih =>
    intro d tld h
    rw [findSplit] at h
    by_cases hdot : (w.getD (j + 1) ' ' == '.') = true
    · rw [if_pos hdot] at h
      by_cases hlen : 2 ≤ ((w.drop (j + 2)).takeWhile Char.isAlpha).length
      · have h2 : some (w.take (j + 1), (w.drop (j + 2)).takeWhile Char.isAlpha) =
            some (d, tld) := by
          rw [← h]
          exact (if_pos hlen).symm
        injection h2 with h2'
        injection h2' with h1 h2
        subst h1
        subst h2
        exact ⟨fun c hc => hw c (List.take_subset _ _ hc),
          fun c hc => List.mem_takeWhile_imp hc, hlen⟩
      · have h2 : findSplit w j = some (d, tld) := by
          rw [← h]
          exact (if_neg hlen).symm
        exact ih d tld h2
    · rw [if_neg hdot] at h
      exact ih d tld h

theorem matchAt_shape {l m r : List Char} (h : matchAt l = some (m, r)) :
    EmailShape m := by
  unfold matchAt at h
  by_cases hle : (l.takeWhile isLocalChar).isEmpty = true
  · rw [if_pos hle] at h
    cases h
  · rw [if_neg hle] at h
    cases hdw : l.dropWhile isLocalChar with
    | nil =>
      rw [hdw] at h
      cases h
    | cons c r2 =>
      rw [hdw] at h
      have h' : (if c == '@' then
          match findSplit (r2.takeWhile isDomainChar) (r2.takeWhile isDomainChar).length with
          | some (d, tld) =>
            some (l.takeWhile isLocalChar ++ '@' :: (d ++ '.' :: tld),
              r2.drop (d.length + 1 + tld.length))
          | none => none
        else none) = some (m, r) := h
      by_cases hc : (c == '@') = true
      · rw [if_pos hc] at h'
        cases hfs : findSplit (r2.takeWhile isDomainChar) (r2.takeWhile isDomainChar).length with
        | none =>
          rw [hfs] at h'
          cases h'
        | some p =>
          obtain ⟨d, tld⟩ := p
          rw [hfs] at h'
          have h'' : some (l.takeWhile isLocalChar ++ '@' :: (d ++ '.' :: tld),
              r2.drop (d.length + 1 + tld.length)) = some (m, r) := h'
          injection h'' with h3
          injection h3 with h1 h2
          have hw : ∀ x ∈ r2.takeWhile isDomainChar, isDomainChar x = true :=
            fun x hx => List.mem_takeWhile_imp hx
          obtain ⟨hd, htld, hlen⟩ := findSplit_shape hw _ d tld hfs
          refine ⟨l.takeWhile isLocalChar, d, tld, ?_, ?_, ?_, hd, htld, hlen⟩
          · exact h1.symm
          · intro hnil
            exact hle (by rw [hnil]; rfl)
          · exact fun x hx => List.mem_takeWhile_imp hx
      · rw [if_neg hc] at h'
        cases h'

theorem findAllAux_shape : ∀ fuel l m, m ∈ findAllAux fuel l → EmailShape m := by
  intro fuel
  induction fuel with
  | zero =>
    intro l m h
    simp [findAllAux] at h
  | succ n ih =>
    intro l m h
    cases l with
    | nil =>
      simp [findAllAux] at h
    | cons c rest =>
      have hunfold : findAllAux (n + 1) (c :: rest) =
          match matchAt (c :: rest) with
          | some (m, r) => m :: findAllAux n r
          | none => findAllAux n (c :: rest).tail := rfl
      rw [hunfold] at h
      cases hm : matchAt (c :: rest) with
      | some p =>
        obtain ⟨m0, r0⟩ := p
        rw [hm] at h
        have h2 : m ∈ m0 :: findAllAux n r0 := h
        rcases List.mem_cons.mp h2 with rfl | hmem
        · exact matchAt_shape hm
        · exact ih r0 m hmem
      | none =>
        rw [hm] at h
        have h2 : m ∈ findAllAux n (c :: rest).tail := h
        exact ih (c :: rest).tail m h2

theorem findAll_shape {l m : List Char} (h : m ∈ findAll l) : EmailShape m :=
  findAllAux_shape l.length l m h

/-! ## The lowered form of a regex match and the filter equivalence -/

theorem lowerChar_at : lowerChar '@' = '@' := by decide

theorem lowerChar_dot : lowerChar '.' = '.' := by decide

theorem lowered_of_shape {m : List Char} (hm : EmailShape m) :
    LoweredShape (m.map lowerChar) := by
  obtain ⟨loc, d, tld, rfl, hlocne, hloc, hd, htld, hlen⟩ := hm
  refine ⟨loc.map lowerChar, d.map lowerChar, tld.map lowerChar, ?_, ?_, ?_, ?_, ?_, ?_⟩
  · simp [List.map_append, lowerChar_at, lowerChar_dot]
  · simpa using hlocne
  · intro c hc
    obtain ⟨c0, hc0, rfl⟩ := List.mem_map.mp hc
    have h0 := hloc c0 hc0
    exact ⟨class_lower_ne h0 (by decide) (by decide),
      class_lower_ne h0 (by decide) (by decide),
      class_lower_ne h0 (by decide) (by decide)⟩
  · intro c hc
    obtain ⟨c0, hc0, rfl⟩ := List.mem_map.mp hc
    have h0 := hd c0 hc0
    exact ⟨class_lower_ne h0 (by decide) (by decide),
      class_lower_ne h0 (by decide) (by decide)⟩
  · intro c hc
    obtain ⟨c0, hc0, rfl⟩ := List.mem_map.mp hc
    have h0 := htld c0 hc0
    exact ⟨class_lower_ne h0 (by decide) (by decide),
      class_lower_ne h0 (by decide) (by decide),
      class_lower_ne h0 (by decide) (by decide),
      class_lower_ne h0 (by decide) (by decide)⟩
  · simpa using hlen

/-- On any string of the lowered shape, the space check, the at-sign-count
check, the domain-dot and final-label checks, and the quote checks all
pass, so the full filter agrees with the simplified one. -/
theorem keepLowered_eq {e : List Char} (he : LoweredShape e) :
    keepLowered e = keepLoweredSimplified e := by
  obtain ⟨loc, d, tld, rfl, hlocne, hloc, hd, htld, hlen⟩ := he
  set e := loc ++ '@' :: (d ++ '.' :: tld) with hee
  have htldne : tld ≠ [] := by
    intro h0
    rw [h0] at hlen
    simp at hlen
  -- the space check passes
  have hspace : e.contains ' ' = false := by
    apply contains_eq_false_of
    rw [hee]
    simp only [List.mem_append, List.mem_cons]
    rintro (hin | hin | hin | hin | hin)
    · exact (hloc _ hin).2.1 rfl
    · cases hin
    · exact (hd _ hin).2 rfl
    · cases hin
    · exact (htld _ hin).2.1 rfl
  -- the at-sign-count check passes
  have hatloc : '@' ∉ loc := fun h0 => (hloc _ h0).1 rfl
  have hatrest : '@' ∉ d ++ '.' :: tld := by
    simp only [List.mem_append, List.mem_cons]
    rintro (hin | hin | hin)
    · exact (hd _ hin).1 rfl
    · cases hin
    · exact (htld _ hin).1 rfl
  have hcount : e.count '@' = 1 := by
    rw [hee, List.count_append]
    rw [List.count_cons_self]
    rw [List.count_eq_zero.mpr hatloc, List.count_eq_zero.mpr hatrest]
  -- the Python split of the lowered string at the at sign
  have hsplit : pySplit '@' e = [loc, d ++ '.' :: tld] := by
    rw [hee, pySplit_sepCons hatloc, pySplit_no_sep hatrest]
  -- the final label after the last dot is exactly the tld
  have hdotTld : '.' ∉ tld := fun h0 => (htld _ h0).2.2.1 rfl
  have hlast : (pySplit '.' (d ++ '.' :: tld)).getLastD [] = tld :=
    pySplit_getLastD hdotTld d
  -- the head and last characters are not quotes
  obtain ⟨a, loc', rfl⟩ : ∃ a loc', loc = a :: loc' := by
    cases loc with
    | nil => exact absurd rfl hlocne
    | cons a loc' => exact ⟨a, loc', rfl⟩
  have hhead : e.headD ' ' = a := by rw [hee]; rfl
  have hheadne : (e.headD ' ' == squote) = false := by
    rw [hhead]
    exact beq_eq_false_iff_ne.mpr ((hloc a (List.mem_cons_self a loc')).2.2)
  have hlastform : e.getLastD ' ' = tld.getLastD ' ' := by
    rw [hee]
    rw [show (a :: loc') ++ '@' :: (d ++ '.' :: tld) =
      ((a :: loc') ++ '@' :: d ++ ['.']) ++ tld by simp]
    exact getLastD_append_right ' ' htldne
  have hlastne : (e.getLastD ' ' == squote) = false := by
    rw [hlastform]
    exact beq_eq_false_iff_ne.mpr ((htld _ (getLastD_mem ' ' htldne)).2.2.2)
  -- now the two filters agree branch by branch
  unfold keepLowered keepLoweredSimplified
  by_cases himg : (common_image_extensions.any (fun ext => containsSub ext e)) = true
  · rw [if_pos himg, if_pos himg]
  · rw [if_neg himg, if_neg himg]
    by_cases hfp : (false_positive_patterns.any (fun fp => containsSub fp e)) = true
    · rw [if_pos hfp, if_pos hfp]
    · rw [if_neg hfp, if_neg hfp]
      have hcond : (decide (255 < e.length) || e.contains ' ' || (e.count '@' != 1)) =
          decide (255 < e.length) := by
        rw [hspace, hcount]
        simp
      rw [hcond]
      by_cases hlong : (decide (255 < e.length)) = true
      · rw [if_pos hlong, if_pos hlong]
      · rw [if_neg hlong, if_neg hlong]
        have hparts : (pySplit '@' e).length = 2 := by rw [hsplit]; rfl
        have hget : (pySplit '@' e).getD 1 [] = d ++ '.' :: tld := by rw [hsplit]; rfl
        have hdotmem : ('.' : Char) ∈ d ++ '.' :: tld := by simp
        have hbig : (decide ((pySplit '@' e).length = 2) &&
            ((pySplit '@' e).getD 1 []).contains '.' &&
            decide (2 ≤ ((pySplit '.' ((pySplit '@' e).getD 1 [])).getLastD []).length)) =
            true := by
          rw [hparts, hget]
          rw [contains_eq_true_of hdotmem, hlast]
          simp [hlen]
        rw [if_pos hbig]
        rw [hheadne, hlastne]
        rfl

theorem keepEmail_eq_simplified {m : List Char} (hm : EmailShape m) :
    keepEmail m = keepEmailSimplified m :=
  keepLowered_eq (lowered_of_shape hm)

/-! ## Lemmas about the crawl engine -/

theorem discoverStep_mem {env : Env} {bd : String} {visited : List String}
    {current_url : String} {depth : Nat}
    {acc : List (String × Nat) × List String × Bool} {link : Anchor}
    {x : String × Nat}
    (hx : x ∈ (discoverStep env bd visited current_url depth acc link).1) :
    x ∈ acc.1 ∨
      (x.2 = depth + 1 ∧ is_valid_url env x.1 = true ∧
        ((env.urlparse x.1).netloc == bd) = true ∧
        visited.contains x.1 = false) := by
  unfold discoverStep at hx
  by_cases h1 : (link.href == "") = true
  · rw [if_pos h1] at hx
    exact Or.inl hx
  · rw [if_neg h1] at hx
    by_cases h2 : (TARGET_PAGE_KEYWORDS.any
        (fun kw => containsSub kw (lowerStr link.href) ||
          containsSub kw (lowerStr link.text))) = true
    · rw [if_pos h2] at hx
      by_cases h3 : ((env.urlparse (env.urljoin current_url link.href)).netloc == bd &&
          !(visited.contains (env.urljoin current_url link.href)) &&
          is_valid_url env (env.urljoin current_url link.href) &&
          !((acc.1.map Prod.fst).contains (env.urljoin current_url link.href))) = true
      · rw [if_pos h3] at hx
        rcases List.mem_append.mp hx with hin | hnew
        · exact Or.inl hin
        · have hx1 : x = (env.urljoin current_url link.href, depth + 1) := by
            simpa using hnew
          subst hx1
          simp only [Bool.and_eq_true] at h3
          refine Or.inr ⟨rfl, h3.1.2, h3.1.1.1, ?_⟩
          have := h3.1.1.2
          simpa using this
      · rw [if_neg h3] at hx
        exact Or.inl hx
    · rw [if_neg h2] at hx
      exact Or.inl hx

theorem discoverLinks_mem {env : Env} {bd : String} {visited : List String}
    {current_url : String} {depth : Nat} {anchors : List Anchor}
    {frontier0 : List (String × Nat)} {x : String × Nat}
    (hx : x ∈ (discoverLinks env bd visited current_url depth anchors frontier0).1) :
    x ∈ frontier0 ∨
      (x.2 = depth + 1 ∧ is_valid_url env x.1 = true ∧
        ((env.urlparse x.1).netloc == bd) = true ∧
        visited.contains x.1 = false) := by
  unfold discoverLinks at hx
  suffices h : ∀ (anchors : List Anchor) (acc : List (String × Nat) × List String × Bool),
      (∀ y ∈ acc.1, y ∈ frontier0 ∨
        (y.2 = depth + 1 ∧ is_valid_url env y.1 = true ∧
          ((env.urlparse y.1).netloc == bd) = true ∧
          visited.contains y.1 = false)) →
      ∀ y ∈ (anchors.foldl (discoverStep env bd visited current_url depth) acc).1,
        y ∈ frontier0 ∨
          (y.2 = depth + 1 ∧ is_valid_url env y.1 = true ∧
            ((env.urlparse y.1).netloc == bd) = true ∧
            visited.contains y.1 = false) by
    exact h anchors (frontier0, [], false) (fun y hy => Or.inl hy) x hx
  intro anchors
  induction anchors with
  | nil => intro acc hacc y hy; exact hacc y hy
  | cons link links ih =>
    intro acc hacc y hy
    rw [List.foldl_cons] at hy
    refine ih (discoverStep env bd visited current_url depth acc link) ?_ y hy
    intro z hz
    rcases discoverStep_mem hz with hz1 | hz2
    · exact hacc z hz1
    · exact Or.inr hz2

/-- Skipped frontier heads (already visited, invalid, or off-domain) only
pop the frontier; nothing else changes. -/
theorem crawlStep_skip {env : Env} {mds : Nat} {bd : String} {st : CrawlState}
    {u : String} {dep : Nat} {rest : List (String × Nat)}
    (hf : st.frontier = (u, dep) :: rest)
    (h : st.visited.contains u = true ∨ is_valid_url env u = false ∨
      ((env.urlparse u).netloc == bd) = false) :
    crawlStep env mds bd st = { st with frontier := rest } := by
  obtain ⟨v, f, col, lg⟩ := st
  simp only at hf
  subst hf
  show (if v.contains u || !is_valid_url env u then
      ({ visited := v, frontier := rest, collected := col, log := lg } : CrawlState)
    else if !((env.urlparse u).netloc == bd) then
      ({ visited := v, frontier := rest, collected := col, log := lg } : CrawlState)
    else crawlVisit env mds bd ⟨v, (u, dep) :: rest, col, lg⟩ u dep rest) =
    ({ visited := v, frontier := rest, collected := col, log := lg } : CrawlState)
  by_cases h1 : (v.contains u || !is_valid_url env u) = true
  · rw [if_pos h1]
  · rw [if_neg h1]
    have h2 : ((env.urlparse u).netloc == bd) = false := by
      rcases h with h | h | h
      · rw [Bool.or_eq_true] at h1
        exact absurd (Or.inl h) h1
      · rw [Bool.or_eq_true] at h1
        exact absurd (Or.inr (by rw [h]; rfl)) h1
      · exact h
    rw [if_pos (by rw [h2]; rfl)]

/-- Non-skipped frontier heads are visited. -/
theorem crawlStep_visit {env : Env} {mds : Nat} {bd : String} {st : CrawlState}
    {u : String} {dep : Nat} {rest : List (String × Nat)}
    (hf : st.frontier = (u, dep) :: rest)
    (hv : st.visited.contains u = false)
    (hval : is_valid_url env u = true)
    (hdom : ((env.urlparse u).netloc == bd) = true) :
    crawlStep env mds bd st = crawlVisit env mds bd st u dep rest := by
  obtain ⟨v, f, col, lg⟩ := st
  simp only at hf hv
  subst hf
  show (if v.contains u || !is_valid_url env u then
      ({ visited := v, frontier := rest, collected := col, log := lg } : CrawlState)
    else if !((env.urlparse u).netloc == bd) then
      ({ visited := v, frontier := rest, collected := col, log := lg } : CrawlState)
    else crawlVisit env mds bd ⟨v, (u, dep) :: rest, col, lg⟩ u dep rest) =
    crawlVisit env mds bd ⟨v, (u, dep) :: rest, col, lg⟩ u dep rest
  rw [if_neg (by rw [hv, hval]; simp), if_neg (by rw [hdom]; simp)]

theorem crawlPage_visited (env : Env) (mds : Nat) (bd : String) (st : CrawlState)
    (u : String) (dep : Nat) (rest : List (String × Nat)) (v1 l1 : List String)
    (page : Page) :
    (crawlPage env mds bd st u dep rest v1 l1 page).visited = v1 := by
  unfold crawlPage
  by_cases hcond : (decide (1 ≤ mds) && (dep == 0)) = true
  · simp only [hcond, if_true]
  · simp [hcond]

theorem crawlPage_frontier_pos {env : Env} {mds : Nat} {bd : String}
    {st : CrawlState} {u : String} {dep : Nat} {rest : List (String × Nat)}
    {v1 l1 : List String} {page : Page}
    (hcond : (decide (1 ≤ mds) && (dep == 0)) = true) :
    (crawlPage env mds bd st u dep rest v1 l1 page).frontier =
      (discoverLinks env bd v1 u dep page.anchors rest).1 := by
  unfold crawlPage
  simp only [hcond, if_true]

theorem crawlPage_frontier_neg {env : Env} {mds : Nat} {bd : String}
    {st : CrawlState} {u : String} {dep : Nat} {rest : List (String × Nat)}
    {v1 l1 : List String} {page : Page}
    (hcond : (decide (1 ≤ mds) && (dep == 0)) = false) :
    (crawlPage env mds bd st u dep rest v1 l1 page).frontier = rest := by
  unfold crawlPage
  simp only [hcond, Bool.false_eq_true, if_false]

theorem crawlVisit_visited (env : Env) (mds : Nat) (bd : String) (st : CrawlState)
    (u : String) (dep : Nat) (rest : List (String × Nat)) :
    (crawlVisit env mds bd st u dep rest).visited = st.visited ++ [u] := by
  unfold crawlVisit
  cases env.fetch u with
  | none => rfl
  | some page => exact crawlPage_visited env mds bd st u dep rest _ _ page

/-- Every element of the frontier after a visit is either from the popped
frontier tail or a freshly queued same-domain valid link at the next
depth, queued only at depth 0 with a positive hop limit. -/
theorem crawlVisit_frontier_mem {env : Env} {mds : Nat} {bd : String}
    {st : CrawlState} {u : String} {dep : Nat} {rest : List (String × Nat)}
    {x : String × Nat}
    (hx : x ∈ (crawlVisit env mds bd st u dep rest).frontier) :
    x ∈ rest ∨
      (1 ≤ mds ∧ dep = 0 ∧ x.2 = dep + 1 ∧ is_valid_url env x.1 = true ∧
        ((env.urlparse x.1).netloc == bd) = true ∧
        (st.visited ++ [u]).contains x.1 = false) := by
  unfold crawlVisit at hx
  cases hfe : env.fetch u with
  | none =>
    rw [hfe] at hx
    exact Or.inl hx
  | some page =>
    rw [hfe] at hx
    by_cases hcond : (decide (1 ≤ mds) && (dep == 0)) = true
    · rw [crawlPage_frontier_pos hcond] at hx
      simp only [Bool.and_eq_true, decide_eq_true_eq, beq_iff_eq] at hcond
      rcases discoverLinks_mem hx with h | ⟨h1, h2, h3, h4⟩
      · exact Or.inl h
      · exact Or.inr ⟨hcond.1, hcond.2, h1, h2, h3, h4⟩
    · rw [crawlPage_frontier_neg (by simpa using hcond)] at hx
      exact Or.inl hx

/-- At depth 1 or deeper, a visit queues nothing: the frontier is exactly
the popped tail. -/
theorem crawlVisit_frontier_deep {env : Env} {mds : Nat} {bd : String}
    {st : CrawlState} {u : String} {dep : Nat} {rest : List (String × Nat)}
    (hdep : dep ≠ 0) :
    (crawlVisit env mds bd st u dep rest).frontier = rest := by
  unfold crawlVisit
  cases env.fetch u with
  | none => rfl
  | some page =>
    have hcond : (decide (1 ≤ mds) && (dep == 0)) = false := by
      have hd : (dep == 0) = false := by simpa using hdep
      rw [hd]
      simp
    exact crawlPage_frontier_neg hcond

/-- One step never removes visited entries and appends at most the head. -/
theorem crawlStep_visited_shape (env : Env) (mds : Nat) (bd : String)
    (st : CrawlState) :
    (crawlStep env mds bd st).visited = st.visited ∨
      ∃ u dep rest, st.frontier = (u, dep) :: rest ∧
        (crawlStep env mds bd st).visited = st.visited ++ [u] ∧
        st.visited.contains u = false ∧ is_valid_url env u = true ∧
        ((env.urlparse u).netloc == bd) = true := by
  cases hf : st.frontier with
  | nil =>
    left
    unfold crawlStep
    rw [hf]
  | cons head rest =>
    obtain ⟨u, dep⟩ := head
    by_cases hv : st.visited.contains u = true
    · left
      rw [crawlStep_skip hf (Or.inl hv)]
    · by_cases hval : is_valid_url env u = true
      · by_cases hdom : ((env.urlparse u).netloc == bd) = true
        · right
          refine ⟨u, dep, rest, rfl, ?_, by simpa using hv, hval, hdom⟩
          rw [crawlStep_visit hf (by simpa using hv) hval hdom]
          exact crawlVisit_visited env mds bd st u dep rest
        · left
          rw [crawlStep_skip hf (Or.inr (Or.inr (by simpa using hdom)))]
      · left
        rw [crawlStep_skip hf (Or.inr (Or.inl (by simpa using hval)))]

theorem crawlStep_visited_mono {env : Env} {mds : Nat} {bd : String}
    {st : CrawlState} {u : String} (h : u ∈ st.visited) :
    u ∈ (crawlStep env mds bd st).visited := by
  rcases crawlStep_visited_shape env mds bd st with he | ⟨v, dep, rest, _, he, _⟩
  · rw [he]; exact h
  · rw [he]; exact List.mem_append_left _ h

theorem crawlLoop_succ (env : Env) (mds : Nat) (bd : String) (n : Nat)
    (st : CrawlState) :
    crawlLoop env mds bd (n + 1) st =
      match st.frontier with
      | [] => st
      | _ :: _ => crawlLoop env mds bd n (crawlStep env mds bd st) := rfl

theorem crawlLoop_cons {env : Env} {mds : Nat} {bd : String} {st : CrawlState}
    {head : String × Nat} {tail : List (String × Nat)} (n : Nat)
    (hf : st.frontier = head :: tail) :
    crawlLoop env mds bd (n + 1) st = crawlLoop env mds bd n (crawlStep env mds bd st) := by
  rw [crawlLoop_succ, hf]

theorem crawlLoop_empty {env : Env} {mds : Nat} {bd : String} {st : CrawlState}
    (h : st.frontier = []) : ∀ fuel, crawlLoop env mds bd fuel st = st := by
  intro fuel
  cases fuel with
  | zero => rfl
  | succ n =>
    rw [crawlLoop_succ, h]

theorem crawlLoop_visited_mono {env : Env} {mds : Nat} {bd : String} :
    ∀ (fuel : Nat) (st : CrawlState) (u : String), u ∈ st.visited →
      u ∈ (crawlLoop env mds bd fuel st).visited := by
  intro fuel
  induction fuel with
  | zero => intro st u h; exact h
  | succ n ih =>
    intro st u h
    cases hf : st.frontier with
    | nil =>
      rw [crawlLoop_empty hf]
      exact h
    | cons head rest =>
      rw [crawlLoop_cons n hf]
      exact ih _ u (crawlStep_visited_mono h)

theorem crawlLoop_compose (env : Env) (mds : Nat) (bd : String) :
    ∀ (a b : Nat) (st : CrawlState),
      crawlLoop env mds bd (a + b) st = crawlLoop env mds bd b (crawlLoop env mds bd a st) := by
  intro a
  induction a with
  | zero =>
    intro b st
    rw [Nat.zero_add]
    rfl
  | succ n ih =>
    intro b st
    cases hf : st.frontier with
    | nil =>
      rw [crawlLoop_empty hf, crawlLoop_empty hf, crawlLoop_empty hf]
    | cons head rest =>
      have h1 : crawlLoop env mds bd (n + 1 + b) st =
          crawlLoop env mds bd (n + b) (crawlStep env mds bd st) := by
        rw [show n + 1 + b = (n + b) + 1 by omega]
        exact crawlLoop_cons (n + b) hf
      rw [h1, crawlLoop_cons n hf, ih]

theorem crawlStep_nil {env : Env} {mds : Nat} {bd : String} {st : CrawlState}
    (hf : st.frontier = []) : crawlStep env mds bd st = st := by
  obtain ⟨v, f, col, lg⟩ := st
  simp only at hf
  subst hf
  rfl

/-- One step of the loop keeps the no-revisit and same-authority invariant
of the visited list. -/
theorem crawlStep_inv {env : Env} {mds : Nat} {bd : String} {st : CrawlState}
    (hnd : st.visited.Nodup)
    (hdom : ∀ u ∈ st.visited, (env.urlparse u).netloc = bd) :
    (crawlStep env mds bd st).visited.Nodup ∧
      ∀ u ∈ (crawlStep env mds bd st).visited, (env.urlparse u).netloc = bd := by
  rcases crawlStep_visited_shape env mds bd st with he | ⟨u, dep, rest, _, he, hu, _, hub⟩
  · rw [he]
    exact ⟨hnd, hdom⟩
  · rw [he]
    have hunotin : u ∉ st.visited := by
      intro hmem
      rw [contains_eq_true_of hmem] at hu
      cases hu
    constructor
    · refine List.Nodup.append hnd (by simp) ?_
      intro x hx hx2
      have : x = u := by simpa using hx2
      subst this
      exact hunotin hx
    · intro w hw
      rcases List.mem_append.mp hw with hw | hw
      · exact hdom w hw
      · have : w = u := by simpa using hw
        subst this
        exact eq_of_beq hub

/-- The no-revisit and same-authority invariant holds at every point of
the loop. -/
theorem crawlLoop_inv {env : Env} {mds : Nat} {bd : String} :
    ∀ (fuel : Nat) (st : CrawlState),
      st.visited.Nodup → (∀ u ∈ st.visited, (env.urlparse u).netloc = bd) →
      (crawlLoop env mds bd fuel st).visited.Nodup ∧
        ∀ u ∈ (crawlLoop env mds bd fuel st).visited, (env.urlparse u).netloc = bd := by
  intro fuel
  induction fuel with
  | zero => intro st h1 h2; exact ⟨h1, h2⟩
  | succ n ih =>
    intro st h1 h2
    cases hf : st.frontier with
    | nil =>
      rw [crawlLoop_empty hf]
      exact ⟨h1, h2⟩
    | cons head rest =>
      rw [crawlLoop_cons n hf]
      obtain ⟨h1', h2'⟩ := crawlStep_inv h1 h2
      exact ih _ h1' h2'

/-- Any frontier element after one step is from the popped tail, or was
queued by link discovery: then the step ran at depth 0 with a positive
hop limit and the element is a valid same-domain link at depth 1. -/
theorem crawlStep_frontier_mem {env : Env} {mds : Nat} {bd : String}
    {st : CrawlState} {x : String × Nat}
    (hx : x ∈ (crawlStep env mds bd st).frontier) :
    x ∈ st.frontier.tail ∨
      (1 ≤ mds ∧ (∃ u rest, st.frontier = (u, 0) :: rest) ∧ x.2 = 1 ∧
        is_valid_url env x.1 = true ∧ ((env.urlparse x.1).netloc == bd) = true) := by
  cases hf : st.frontier with
  | nil =>
    rw [crawlStep_nil hf, hf] at hx
    cases hx
  | cons head rest =>
    obtain ⟨u, dep⟩ := head
    by_cases hv : st.visited.contains u = true
    · rw [crawlStep_skip hf (Or.inl hv)] at hx
      exact Or.inl hx
    · by_cases hval : is_valid_url env u = true
      · by_cases hdomc : ((env.urlparse u).netloc == bd) = true
        · rw [crawlStep_visit hf (by simpa using hv) hval hdomc] at hx
          rcases crawlVisit_frontier_mem hx with h | ⟨hm, hd0, hx2, hxv, hxb, -⟩
          · exact Or.inl h
          · subst hd0
            exact Or.inr ⟨hm, ⟨u, rest, rfl⟩, hx2, hxv, hxb⟩
        · rw [crawlStep_skip hf (Or.inr (Or.inr (by simpa using hdomc)))] at hx
          exact Or.inl hx
      · rw [crawlStep_skip hf (Or.inr (Or.inl (by simpa using hval)))] at hx
        exact Or.inl hx

/-- Depth never exceeds 1 anywhere in the frontier, at any point of the
loop, for any configured hop limit. -/
theorem crawlLoop_depth_le {env : Env} {mds : Nat} {bd : String} :
    ∀ (fuel : Nat) (st : CrawlState),
      (∀ x ∈ st.frontier, x.2 ≤ 1) →
      ∀ x ∈ (crawlLoop env mds bd fuel st).frontier, x.2 ≤ 1 := by
  intro fuel
  induction fuel with
  | zero => intro st h x hx; exact h x hx
  | succ n ih =>
    intro st h x hx
    cases hf : st.frontier with
    | nil =>
      rw [crawlLoop_empty hf] at hx
      exact h x hx
    | cons head rest =>
      rw [crawlLoop_cons n hf] at hx
      refine ih _ ?_ x hx
      intro y hy
      rcases crawlStep_frontier_mem hy with h1 | ⟨-, -, h2, -, -⟩
      · exact h y (by rw [hf]; exact List.mem_cons_of_mem _ (by rwa [hf] at h1))
      · omega

/-- If every frontier element is at depth 1 or deeper, valid and
same-domain, then a loop budget of the frontier length suffices to visit
all of them. -/
theorem crawlLoop_visits_high {env : Env} {mds : Nat} {bd : String} :
    ∀ (fuel : Nat) (st : CrawlState),
      (∀ x ∈ st.frontier, 1 ≤ x.2 ∧ is_valid_url env x.1 = true ∧
        ((env.urlparse x.1).netloc == bd) = true) →
      st.frontier.length ≤ fuel →
      ∀ x ∈ st.frontier, x.1 ∈ (crawlLoop env mds bd fuel st).visited := by
  intro fuel
  induction fuel with
  | zero =>
    intro st hprem hlen x hx
    have : st.frontier = [] := List.length_eq_zero.mp (Nat.le_zero.mp hlen)
    rw [this] at hx
    cases hx
  | succ n ih =>
    intro st hprem hlen x hx
    cases hf : st.frontier with
    | nil =>
      rw [hf] at hx
      cases hx
    | cons head rest =>
      obtain ⟨u, dep⟩ := head
      rw [crawlLoop_cons n hf]
      obtain ⟨hd1, hd2, hd3⟩ := hprem (u, dep) (by rw [hf]; exact List.mem_cons_self _ _)
      by_cases hv : st.visited.contains u = true
      · have hstep : crawlStep env mds bd st = { st with frontier := rest } :=
          crawlStep_skip hf (Or.inl hv)
        rw [hf] at hx
        rcases List.mem_cons.mp hx with heq | hx
        · subst heq
          have humem : u ∈ st.visited := mem_of_contains hv
          rw [hstep]
          exact crawlLoop_visited_mono n _ u humem
        · rw [hstep]
          refine ih { st with frontier := rest } ?_ ?_ x hx
          · intro y hy
            exact hprem y (by rw [hf]; exact List.mem_cons_of_mem _ hy)
          · rw [hf] at hlen
            simpa using Nat.le_of_succ_le_succ hlen
      · have hstep : crawlStep env mds bd st = crawlVisit env mds bd st u dep rest :=
          crawlStep_visit hf (by simpa using hv) hd2 hd3
        have hvis : (crawlVisit env mds bd st u dep rest).visited =
            st.visited ++ [u] := crawlVisit_visited env mds bd st u dep rest
        have hfront : (crawlVisit env mds bd st u dep rest).frontier = rest :=
          crawlVisit_frontier_deep (by simp only at hd1; omega)
        rw [hf] at hx
        rcases List.mem_cons.mp hx with heq | hx
        · subst heq
          have humem : u ∈ (crawlStep env mds bd st).visited := by
            rw [hstep, hvis]
            simp
          exact crawlLoop_visited_mono n _ u humem
        · rw [hstep]
          refine ih (crawlVisit env mds bd st u dep rest) ?_ ?_ x ?_
          · intro y hy
            rw [hfront] at hy
            exact hprem y (by rw [hf]; exact List.mem_cons_of_mem _ hy)
          · rw [hfront]
            rw [hf] at hlen
            simpa using Nat.le_of_succ_le_succ hlen
          · rw [hfront]
            exact hx

/-- A valid seed is visited by the first loop iteration. -/
theorem crawl_seed_visited {env : Env} {mds : Nat} {base : String}
    (hval : is_valid_url env base = true) :
    ∀ fuel, 1 ≤ fuel →
      base ∈ (scrape_core env base mds fuel).visited := by
  intro fuel hfuel
  obtain ⟨n, rfl⟩ : ∃ n, fuel = n + 1 := ⟨fuel - 1, by omega⟩
  unfold scrape_core
  have hf : (initState base mds).frontier = (base, 0) :: [] := rfl
  rw [crawlLoop_cons n hf]
  have hstep : crawlStep env mds ((env.urlparse base).netloc) (initState base mds) =
      crawlVisit env mds ((env.urlparse base).netloc) (initState base mds) base 0 [] := by
    refine crawlStep_visit hf rfl hval ?_
    simp
  rw [hstep]
  apply crawlLoop_visited_mono
  rw [crawlVisit_visited]
  simp

/-! ## Lemmas about the task runner -/

theorem processSites_eq (env : Env) (fuel : Nat) (websites : List String) :
    processSites env fuel websites =
      websites.map (fun w => (w, rowText env fuel w)) := by
  unfold processSites
  suffices h : ∀ (ws : List String) (acc : List (String × String)),
      ws.foldl (fun acc website_url => acc ++ [(website_url, rowText env fuel website_url)]) acc =
        acc ++ ws.map (fun w => (w, rowText env fuel w)) by
    simpa using h websites []
  intro ws
  induction ws with
  | nil => intro acc; simp
  | cons w ws ih =>
    intro acc
    rw [List.foldl_cons, ih]
    simp

/-! ## Lemmas about the progress stream -/

theorem dataPayloads_append (a b : List StreamEvent) :
    dataPayloads (a ++ b) = dataPayloads a ++ dataPayloads b := by
  unfold dataPayloads
  rw [List.filterMap_append]

theorem dataPayloads_map (l : List String) :
    dataPayloads (l.map StreamEvent.data) = l := by
  induction l with
  | nil => rfl
  | cons m rest ih =>
    simp only [List.map_cons]
    show dataPayloads (StreamEvent.data m :: rest.map StreamEvent.data) = m :: rest
    unfold dataPayloads at ih ⊢
    rw [List.filterMap_cons]
    simpa using ih

theorem dataPayloads_complete (f : String) :
    dataPayloads [StreamEvent.completeEvt f] = [] := rfl

theorem dataPayloads_error (msg : String) :
    dataPayloads [StreamEvent.errorEvt msg] = [] := rfl

/-- Unfolding equation of the generator on a present snapshot. -/
theorem progress_stream_cons (tid : String) (t : TaskRecord)
    (rest : List (Option TaskRecord)) (last : Int) :
    progress_stream tid (some t :: rest) last =
      (let new_messages := t.progress_messages.drop (last + 1).toNat
       let evts := new_messages.map StreamEvent.data
       if t.status = .complete then evts ++ [.completeEvt (t.filename.getD "")]
       else if t.status = .error then
         evts ++ [.errorEvt (t.error_message.getD "An unknown error occurred.")]
       else evts ++ progress_stream tid rest (last + new_messages.length)) := rfl

theorem preTrans {α : Type} {a b c : List α} (h1 : a <+: b) (h2 : b <+: c) :
    a <+: c := by
  obtain ⟨s, rfl⟩ := h1
  obtain ⟨s2, rfl⟩ := h2
  exact ⟨s ++ s2, by rw [List.append_assoc]⟩

theorem chain_head_last :
    ∀ (t : TaskRecord) (rest : List TaskRecord), MsgChain (t :: rest) →
      t.progress_messages <+: ((t :: rest).getLastD emptyRecord).progress_messages := by
  intro t rest
  induction rest generalizing t with
  | nil => intro _; exact ⟨[], List.append_nil _⟩
  | cons t2 rest2 ih =>
    intro hchain
    obtain ⟨h12, hrest⟩ := List.chain'_cons.mp hchain
    have hlast : ((t :: t2 :: rest2).getLastD emptyRecord) =
        ((t2 :: rest2).getLastD emptyRecord) :=
      getLastD_cons_of_ne_nil t emptyRecord (by simp)
    rw [hlast]
    exact preTrans h12 (ih t2 hrest)

theorem pre_drop {α : Type} {a b : List α} (n : Nat) (h : a <+: b)
    (hn : n ≤ a.length) : b.drop n = a.drop n ++ b.drop a.length := by
  obtain ⟨t, rfl⟩ := h
  rw [List.drop_append_of_le_length hn, List.drop_left]

/-- The log lines carried by the whole stream, starting from message index
`c`, form (in order, without duplication or gaps) an initial segment of
the final snapshot's log past index `c`. -/
theorem stream_payloads (tid : String) :
    ∀ (snaps : List TaskRecord) (c : Nat), snaps ≠ [] → MsgChain snaps →
      c ≤ (snaps.headD emptyRecord).progress_messages.length →
      ∃ k, dataPayloads (progress_stream tid (snaps.map some) ((c : Int) - 1)) =
        (((snaps.getLastD emptyRecord).progress_messages.drop c).take k) := by
  intro snaps
  induction snaps with
  | nil => intro c hne; exact absurd rfl hne
  | cons t rest ih =>
    intro c hne hchain hc
    have hcursor : (((c : Int) - 1) + 1).toNat = c := by omega
    cases rest with
    | nil =>
      refine ⟨(t.progress_messages.drop c).length, ?_⟩
      rw [List.map_cons, List.map_nil, progress_stream_cons]
      show dataPayloads (if t.status = .complete then _ else _) = _
      rw [hcursor]
      have hL : ((t :: []).getLastD emptyRecord) = t := rfl
      rw [hL, List.take_length]
      by_cases h1 : t.status = TaskStatus.complete
      · rw [if_pos h1, dataPayloads_append, dataPayloads_map, dataPayloads_complete,
          List.append_nil]
      · rw [if_neg h1]
        by_cases h2 : t.status = TaskStatus.error
        · rw [if_pos h2, dataPayloads_append, dataPayloads_map, dataPayloads_error,
            List.append_nil]
        · rw [if_neg h2]
          show dataPayloads (_ ++ progress_stream tid [] _) = _
          rw [show progress_stream tid [] ((c : Int) - 1 +
              (t.progress_messages.drop c).length) = [] from rfl]
          rw [List.append_nil, dataPayloads_map]
    | cons t2 rest2 =>
      obtain ⟨h12, hrest⟩ := List.chain'_cons.mp hchain
      have hc2 : c ≤ t.progress_messages.length := hc
      have hL : ((t :: t2 :: rest2).getLastD emptyRecord) =
          ((t2 :: rest2).getLastD emptyRecord) :=
        getLastD_cons_of_ne_nil t emptyRecord (by simp)
      have hpreL : t.progress_messages <+:
          ((t :: t2 :: rest2).getLastD emptyRecord).progress_messages :=
        chain_head_last t (t2 :: rest2) hchain
      set L := ((t :: t2 :: rest2).getLastD emptyRecord).progress_messages with hLdef
      have hdropL : L.drop c = t.progress_messages.drop c ++
          L.drop t.progress_messages.length := pre_drop c hpreL hc2
      have htake1 : (L.drop c).take (t.progress_messages.length - c) =
          t.progress_messages.drop c := by
        rw [hdropL]
        rw [show t.progress_messages.length - c = (t.progress_messages.drop c).length by
          rw [List.length_drop]]
        rw [List.take_left]
      rw [List.map_cons, progress_stream_cons]
      show (∃ k, dataPayloads (if t.status = .complete then _ else _) = (L.drop c).take k)
      rw [hcursor]
      by_cases h1 : t.status = TaskStatus.complete
      · refine ⟨t.progress_messages.length - c, ?_⟩
        rw [if_pos h1, dataPayloads_append, dataPayloads_map, dataPayloads_complete,
          List.append_nil, htake1]
      · rw [if_neg h1]
        by_cases h2 : t.status = TaskStatus.error
        · refine ⟨t.progress_messages.length - c, ?_⟩
          rw [if_pos h2, dataPayloads_append, dataPayloads_map, dataPayloads_error,
            List.append_nil, htake1]
        · rw [if_neg h2]
          have hlen2 : t.progress_messages.length ≤
              ((t2 :: rest2).headD emptyRecord).progress_messages.length := by
            obtain ⟨s, hs⟩ := h12
            show t.progress_messages.length ≤ t2.progress_messages.length
            rw [← hs]
            simp
          have hcadv : ((c : Int) - 1) + (t.progress_messages.drop c).length =
              ((t.progress_messages.length : Int)) - 1 := by
            rw [List.length_drop]
            omega
          obtain ⟨k', hk'⟩ := ih t.progress_messages.length (by simp) hrest hlen2
          refine ⟨(t.progress_messages.length - c) + k', ?_⟩
          rw [dataPayloads_append, dataPayloads_map, hcadv, hk']
          have hLrw : ((t2 :: rest2).getLastD emptyRecord).progress_messages = L := by
            rw [hLdef, hL]
          rw [hLrw]
          rw [List.take_add, htake1]
          congr 1
          rw [hdropL]
          rw [show t.progress_messages.length - c = (t.progress_messages.drop c).length by
            rw [List.length_drop]]
          rw [List.drop_left]

/-- An observer whose first snapshot is already Complete receives the
whole log backlog followed by the one terminal complete event, and the
stream ends. -/
theorem progress_stream_terminal_complete (tid : String) (t : TaskRecord)
    (h : t.status = TaskStatus.complete) :
    progress_stream tid [some t] (-1) =
      t.progress_messages.map StreamEvent.data ++
        [StreamEvent.completeEvt (t.filename.getD "")] := by
  simp [progress_stream, h]

/-- An observer whose first snapshot is already Error receives the whole
log backlog followed by the one terminal error event, and the stream
ends. -/
theorem progress_stream_terminal_error (tid : String) (t : TaskRecord)
    (h : t.status = TaskStatus.error) :
    progress_stream tid [some t] (-1) =
      t.progress_messages.map StreamEvent.data ++
        [StreamEvent.errorEvt (t.error_message.getD "An unknown error occurred.")] := by
  simp [progress_stream, h]

/-! ## Lemmas about the mailto handler -/

theorem splitSubAux_ne_nil (sep : List Char) :
    ∀ (fuel : Nat) (l : List Char), splitSubAux sep fuel l ≠ [] := by
  intro fuel l
  cases fuel with
  | zero => simp [splitSubAux]
  | succ n =>
    unfold splitSubAux
    cases (List.range (l.length + 1)).find? (fun i => sep.isPrefixOf (l.drop i)) with
    | none => simp
    | some i => simp

/-- For every href that starts with `mailto:`, the first split produces at
least two pieces, so indexing `[1]` cannot raise: the `except IndexError`
branch of the source is unreachable. -/
theorem mailtoToken_isSome {href : List Char}
    (h : mailtoSep.isPrefixOf href = true) : (mailtoToken href).isSome = true := by
  unfold mailtoToken splitSub
  obtain ⟨n, hn⟩ : ∃ n, href.length + 1 = n + 1 := ⟨href.length, rfl⟩
  rw [hn]
  unfold splitSubAux
  have hfind : (List.range (href.length + 1)).find?
      (fun i => mailtoSep.isPrefixOf (href.drop i)) = some 0 := by
    rw [List.range_succ_eq_map]
    refine List.find?_cons_of_pos _ ?_
    simpa using h
  rw [hfind]
  obtain ⟨x, xs, hxs⟩ : ∃ x xs, splitSubAux mailtoSep n
      (href.drop (0 + mailtoSep.length)) = x :: xs := by
    cases hs : splitSubAux mailtoSep n (href.drop (0 + mailtoSep.length)) with
    | nil => exact absurd hs (splitSubAux_ne_nil mailtoSep n _)
    | cons x xs => exact ⟨x, xs, rfl⟩
  show (match (List.take 0 href ::
      splitSubAux mailtoSep n (href.drop (0 + mailtoSep.length))).get? 1 with
    | none => none
    | some s => some ((pySplit '?' s).headD [])).isSome = true
  rw [hxs]
  rfl

/-- Processing one anchor never logs a warning: the `IndexError` branch is
dead code. -/
theorem mailtoStep_warn (current_url : String) (acc : List Char × List String)
    (a : Anchor) : (mailtoStep current_url acc a).2 = acc.2 := by
  unfold mailtoStep
  by_cases hpre : (mailtoSep.isPrefixOf a.href.toList) = true
  · rw [if_pos hpre]
    have hsome := mailtoToken_isSome hpre
    cases htok : mailtoToken a.href.toList with
    | none => rw [htok] at hsome; cases hsome
    | some tok => rfl
  · rw [if_neg hpre]

/-- The page-text construction never logs a malformed-mailto warning. -/
theorem buildPageText_no_warn (current_url : String) (page : Page) :
    (buildPageText current_url page).2 = [] := by
  unfold buildPageText
  suffices h : ∀ (anchors : List Anchor) (acc : List Char × List String),
      (anchors.foldl (mailtoStep current_url) acc).2 = acc.2 by
    rw [h page.anchors (page.text, [])]
  intro anchors
  induction anchors with
  | nil => intro acc; rfl
  | cons a as ih =>
    intro acc
    rw [List.foldl_cons, ih, mailtoStep_warn]

/-! ## Lemmas about the download-name check -/

theorem containsSub_of_inf {x l : List Char} (h : x <:+: l) :
    containsSub x l = true := by
  obtain ⟨s, t, rfl⟩ := h
  unfold containsSub
  rw [List.any_eq_true]
  refine ⟨s.length, List.mem_range.mpr ?_, ?_⟩
  · simp only [List.length_append]
    omega
  · rw [List.append_assoc, List.drop_left]
    exact isPrefixOf_true_iff.mpr ⟨t, rfl⟩

/-! ## Further step lemmas for the hop-limit statements -/

theorem crawlStep_frontier_deep {env : Env} {mds : Nat} {bd : String}
    {st : CrawlState} {u : String} {dep : Nat} {rest : List (String × Nat)}
    (hf : st.frontier = (u, dep) :: rest) (hdep : dep ≠ 0) :
    (crawlStep env mds bd st).frontier = rest := by
  by_cases hv : st.visited.contains u = true
  · rw [crawlStep_skip hf (Or.inl hv)]
  · by_cases hval : is_valid_url env u = true
    · by_cases hdom : ((env.urlparse u).netloc == bd) = true
      · rw [crawlStep_visit hf (by simpa using hv) hval hdom]
        exact crawlVisit_frontier_deep hdep
      · rw [crawlStep_skip hf (Or.inr (Or.inr (by simpa using hdom)))]
    · rw [crawlStep_skip hf (Or.inr (Or.inl (by simpa using hval)))]

/-! ## Completeness of link discovery

The lemmas above say everything queued is a valid same-domain depth-1
link; the lemmas below say the converse: every anchor of the processed
page that matches a keyword and passes the enqueue guards really ends up
in the frontier. -/

/-- The frontier addresses accumulated by the discovery fold only grow. -/
theorem discoverStep_fst_mono {env : Env} {bd : String} {visited : List String}
    {cu : String} {dep : Nat} {acc : List (String × Nat) × List String × Bool}
    {link : Anchor} {u : String} (h : u ∈ acc.1.map Prod.fst) :
    u ∈ (discoverStep env bd visited cu dep acc link).1.map Prod.fst := by
  unfold discoverStep
  by_cases h1 : (link.href == "") = true
  · rw [if_pos h1]
    exact h
  · rw [if_neg h1]
    by_cases h2 : (TARGET_PAGE_KEYWORDS.any
        (fun kw => containsSub kw (lowerStr link.href) ||
          containsSub kw (lowerStr link.text))) = true
    · rw [if_pos h2]
      by_cases h3 : ((env.urlparse (env.urljoin cu link.href)).netloc == bd &&
          !(visited.contains (env.urljoin cu link.href)) &&
          is_valid_url env (env.urljoin cu link.href) &&
          !((acc.1.map Prod.fst).contains (env.urljoin cu link.href))) = true
      · rw [if_pos h3]
        rw [List.map_append]
        exact List.mem_append_left _ h
      · rw [if_neg h3]
        exact h
    · rw [if_neg h2]
      exact h

theorem discoverFold_fst_mono {env : Env} {bd : String} {visited : List String}
    {cu : String} {dep : Nat} :
    ∀ (anchors : List Anchor) (acc : List (String × Nat) × List String × Bool)
      (u : String), u ∈ acc.1.map Prod.fst →
      u ∈ (anchors.foldl (discoverStep env bd visited cu dep) acc).1.map Prod.fst := by
  intro anchors
  induction anchors with
  | nil => intro acc u h; exact h
  | cons a as ih =>
    intro acc u h
    rw [List.foldl_cons]
    exact ih _ u (discoverStep_fst_mono h)

/-- Processing an anchor with a non-empty keyword-matching href whose
resolved address is same-domain, unvisited and valid leaves that address
in the frontier: it is either queued now or was already there. -/
theorem discoverStep_complete {env : Env} {bd : String} {visited : List String}
    {cu : String} {dep : Nat} {acc : List (String × Nat) × List String × Bool}
    {link : Anchor}
    (h1 : (link.href == "") = false)
    (h2 : (TARGET_PAGE_KEYWORDS.any
      (fun kw => containsSub kw (lowerStr link.href) ||
        containsSub kw (lowerStr link.text))) = true)
    (h3 : ((env.urlparse (env.urljoin cu link.href)).netloc == bd) = true)
    (h4 : visited.contains (env.urljoin cu link.href) = false)
    (h5 : is_valid_url env (env.urljoin cu link.href) = true) :
    env.urljoin cu link.href ∈
      (discoverStep env bd visited cu dep acc link).1.map Prod.fst := by
  unfold discoverStep
  rw [if_neg (by simp [h1]), if_pos h2]
  by_cases hc : ((acc.1.map Prod.fst).contains (env.urljoin cu link.href)) = true
  · rw [if_neg (by rw [hc]; simp)]
    exact mem_of_contains hc
  · have hcf : ((acc.1.map Prod.fst).contains (env.urljoin cu link.href)) = false := by
      simpa using hc
    rw [if_pos (by rw [h3, h4, h5, hcf]; rfl)]
    rw [List.map_append]
    exact List.mem_append_right _ (by simp)

theorem discoverFold_complete {env : Env} {bd : String} {visited : List String}
    {cu : String} {dep : Nat} :
    ∀ (anchors : List Anchor) (acc : List (String × Nat) × List String × Bool)
      (link : Anchor), link ∈ anchors →
      (link.href == "") = false →
      (TARGET_PAGE_KEYWORDS.any
        (fun kw => containsSub kw (lowerStr link.href) ||
          containsSub kw (lowerStr link.text))) = true →
      ((env.urlparse (env.urljoin cu link.href)).netloc == bd) = true →
      visited.contains (env.urljoin cu link.href) = false →
      is_valid_url env (env.urljoin cu link.href) = true →
      env.urljoin cu link.href ∈
        (anchors.foldl (discoverStep env bd visited cu dep) acc).1.map Prod.fst := by
  intro anchors
  induction anchors with
  | nil => intro acc link h; cases h
  | cons a as ih =>
    intro acc link hmem h1 h2 h3 h4 h5
    rw [List.foldl_cons]
    rcases List.mem_cons.mp hmem with heq | hmem'
    · subst heq
      exact discoverFold_fst_mono as _ _ (discoverStep_complete h1 h2 h3 h4 h5)
    · exact ih _ link hmem' h1 h2 h3 h4 h5

/-- Whole-loop discovery completeness. -/
theorem discoverLinks_complete {env : Env} {bd : String} {visited : List String}
    {cu : String} {dep : Nat} {anchors : List Anchor}
    {frontier0 : List (String × Nat)} {link : Anchor}
    (hmem : link ∈ anchors)
    (h1 : (link.href == "") = false)
    (h2 : (TARGET_PAGE_KEYWORDS.any
      (fun kw => containsSub kw (lowerStr link.href) ||
        containsSub kw (lowerStr link.text))) = true)
    (h3 : ((env.urlparse (env.urljoin cu link.href)).netloc == bd) = true)
    (h4 : visited.contains (env.urljoin cu link.href) = false)
    (h5 : is_valid_url env (env.urljoin cu link.href) = true) :
    env.urljoin cu link.href ∈
      (discoverLinks env bd visited cu dep anchors frontier0).1.map Prod.fst := by
  unfold discoverLinks
  exact discoverFold_complete anchors (frontier0, [], false) link hmem h1 h2 h3 h4 h5

/-- On a successful fetch at depth 0 with a positive hop limit, the
frontier after the visit is exactly the output of link discovery run over
the fetched page's anchors. -/
theorem crawlVisit_frontier_fetch_some {env : Env} {mds : Nat} {bd : String}
    {st : CrawlState} {u : String} {dep : Nat} {rest : List (String × Nat)}
    {page : Page} (hf : env.fetch u = some page)
    (hcond : (decide (1 ≤ mds) && (dep == 0)) = true) :
    (crawlVisit env mds bd st u dep rest).frontier =
      (discoverLinks env bd (st.visited ++ [u]) u dep page.anchors rest).1 := by
  unfold crawlVisit
  rw [hf]
  exact crawlPage_frontier_pos hcond

/-! ## The claims -/

/-- C1: within one invocation of the crawl engine, no address is ever
visited twice (the visit-ordered visited list stays duplicate-free) and
every visited address has exactly the seed's authority; a frontier head
that is already visited, fails the validator, or is off-domain is skipped
and the loop just moves to the next element. -/
theorem c1_no_revisit_same_authority (env : Env) (mds : Nat) (base_url : String) :
    (∀ (st : CrawlState) (u : String) (dep : Nat) (rest : List (String × Nat)),
      st.frontier = (u, dep) :: rest →
      (st.visited.contains u = true ∨ is_valid_url env u = false ∨
        ((env.urlparse u).netloc == (env.urlparse base_url).netloc) = false) →
      crawlStep env mds ((env.urlparse base_url).netloc) st =
        { st with frontier := rest }) ∧
    (∀ fuel : Nat,
      (scrape_core env base_url mds fuel).visited.Nodup ∧
      ∀ u ∈ (scrape_core env base_url mds fuel).visited,
        (env.urlparse u).netloc = (env.urlparse base_url).netloc) := by
  constructor
  · intro st u dep rest hf h
    exact crawlStep_skip hf h
  · intro fuel
    exact crawlLoop_inv fuel (initState base_url mds) (by simp [initState])
      (by simp [initState])

/-- Witness for C1 at the concrete world `wEnv`: an off-domain frontier
head is only popped, and a finished two-page crawl has a duplicate-free,
same-authority visited list. -/
theorem c1_witness :
    crawlStep wEnv 1 ((wEnv.urlparse "http://a.com").netloc)
        { visited := [], frontier := [("http://b.com", 1)], collected := [], log := [] } =
      { visited := [], frontier := [], collected := [], log := [] } ∧
    (scrape_core wEnv "http://a.com" 1 10).visited.Nodup ∧
    ∀ u ∈ (scrape_core wEnv "http://a.com" 1 10).visited,
      (wEnv.urlparse u).netloc = (wEnv.urlparse "http://a.com").netloc := by
  have h := c1_no_revisit_same_authority wEnv 1 "http://a.com"
  exact ⟨h.1 _ "http://b.com" 1 [] rfl (Or.inr (Or.inr (by decide))),
    (h.2 10).1, (h.2 10).2⟩

/-- C2: for every hop limit at least 1, frontier depths never exceed 1 at
any point of the run, a valid seed is visited, a depth-1 (or deeper)
frontier head never enqueues anything, every link enqueued while
processing the seed sits at depth 1, is valid and same-domain, and is
visited once the budget covers the after-seed frontier; and conversely
(discovery completeness) every anchor of the fetched seed page whose href
or visible text matches a target keyword and whose resolved address is
same-domain, unvisited and valid is enqueued at depth 1 and visited. -/
theorem c2_one_hop (env : Env) (mds : Nat) (hmds : 1 ≤ mds) (base_url : String) :
    (∀ (fuel : Nat) (x : String × Nat),
      x ∈ (scrape_core env base_url mds fuel).frontier → x.2 ≤ 1) ∧
    (is_valid_url env base_url = true → ∀ fuel, 1 ≤ fuel →
      base_url ∈ (scrape_core env base_url mds fuel).visited) ∧
    (∀ (st : CrawlState) (u : String) (dep : Nat) (rest : List (String × Nat)),
      st.frontier = (u, dep) :: rest → dep ≠ 0 →
      (crawlStep env mds ((env.urlparse base_url).netloc) st).frontier = rest) ∧
    (∀ x ∈ (scrape_core env base_url mds 1).frontier,
      x.2 = 1 ∧ is_valid_url env x.1 = true ∧
      ((env.urlparse x.1).netloc == (env.urlparse base_url).netloc) = true ∧
      ∀ k, (scrape_core env base_url mds 1).frontier.length ≤ k →
        x.1 ∈ (scrape_core env base_url mds (1 + k)).visited) ∧
    (∀ page : Page, is_valid_url env base_url = true →
      env.fetch base_url = some page →
      ∀ link ∈ page.anchors, (link.href == "") = false →
      (TARGET_PAGE_KEYWORDS.any
        (fun kw => containsSub kw (lowerStr link.href) ||
          containsSub kw (lowerStr link.text))) = true →
      ((env.urlparse (env.urljoin base_url link.href)).netloc ==
        (env.urlparse base_url).netloc) = true →
      env.urljoin base_url link.href ≠ base_url →
      is_valid_url env (env.urljoin base_url link.href) = true →
      (env.urljoin base_url link.href, 1) ∈ (scrape_core env base_url mds 1).frontier ∧
      ∀ k, (scrape_core env base_url mds 1).frontier.length ≤ k →
        env.urljoin base_url link.href ∈
          (scrape_core env base_url mds (1 + k)).visited) := by
  have hone : scrape_core env base_url mds 1 =
      crawlStep env mds ((env.urlparse base_url).netloc) (initState base_url mds) := by
    unfold scrape_core
    exact crawlLoop_cons 0 rfl
  have hchar : ∀ x ∈ (scrape_core env base_url mds 1).frontier,
      x.2 = 1 ∧ is_valid_url env x.1 = true ∧
      ((env.urlparse x.1).netloc == (env.urlparse base_url).netloc) = true := by
    intro x hx
    rw [hone] at hx
    rcases crawlStep_frontier_mem hx with h | ⟨-, -, h2, h3, h4⟩
    · cases h
    · exact ⟨h2, h3, h4⟩
  have hd_all : ∀ x ∈ (scrape_core env base_url mds 1).frontier,
      x.2 = 1 ∧ is_valid_url env x.1 = true ∧
      ((env.urlparse x.1).netloc == (env.urlparse base_url).netloc) = true ∧
      ∀ k, (scrape_core env base_url mds 1).frontier.length ≤ k →
        x.1 ∈ (scrape_core env base_url mds (1 + k)).visited := by
    intro x hx
    obtain ⟨h1, h2, h3⟩ := hchar x hx
    refine ⟨h1, h2, h3, ?_⟩
    intro k hk
    have hcomp : scrape_core env base_url mds (1 + k) =
        crawlLoop env mds ((env.urlparse base_url).netloc) k
          (scrape_core env base_url mds 1) := by
      unfold scrape_core
      exact crawlLoop_compose env mds ((env.urlparse base_url).netloc) 1 k
        (initState base_url mds)
    rw [hcomp]
    refine crawlLoop_visits_high k (scrape_core env base_url mds 1) ?_ hk x hx
    intro y hy
    obtain ⟨g1, g2, g3⟩ := hchar y hy
    exact ⟨by omega, g2, g3⟩
  refine ⟨?_, ?_, ?_, hd_all, ?_⟩
  · intro fuel x hx
    refine crawlLoop_depth_le fuel (initState base_url mds) ?_ x hx
    intro y hy
    have : y = (base_url, 0) := by simpa [initState] using hy
    rw [this]
    exact Nat.zero_le 1
  · intro hval fuel hfuel
    exact crawl_seed_visited hval fuel hfuel
  · intro st u dep rest hf hdep
    exact crawlStep_frontier_deep hf hdep
  · intro page hval hfetch link hlink h1 h2 h3 h4 h5
    have hstep : crawlStep env mds ((env.urlparse base_url).netloc)
        (initState base_url mds) =
        crawlVisit env mds ((env.urlparse base_url).netloc)
          (initState base_url mds) base_url 0 [] := by
      refine crawlStep_visit rfl rfl hval ?_
      simp
    have hcond : (decide (1 ≤ mds) && ((0 : Nat) == 0)) = true := by
      rw [decide_eq_true hmds]
      rfl
    have hfront : (scrape_core env base_url mds 1).frontier =
        (discoverLinks env ((env.urlparse base_url).netloc)
          ((initState base_url mds).visited ++ [base_url]) base_url 0
          page.anchors []).1 := by
      rw [hone, hstep]
      exact crawlVisit_frontier_fetch_some hfetch hcond
    have h4' : (((initState base_url mds).visited ++ [base_url]).contains
        (env.urljoin base_url link.href)) = false :=
      contains_eq_false_of (by simpa [initState] using h4)
    have hmem1 : env.urljoin base_url link.href ∈
        (scrape_core env base_url mds 1).frontier.map Prod.fst := by
      rw [hfront]
      exact discoverLinks_complete hlink h1 h2 h3 h4' h5
    obtain ⟨x, hx, hxfst⟩ := List.mem_map.mp hmem1
    obtain ⟨a, b⟩ := x
    obtain ⟨hx2, -, -⟩ := hchar (a, b) hx
    have hxeq : (a, b) = (env.urljoin base_url link.href, 1) := by
      simp only at hxfst hx2
      rw [hxfst, hx2]
    rw [hxeq] at hx
    refine ⟨hx, ?_⟩
    intro k hk
    exact (hd_all (env.urljoin base_url link.href, 1) hx).2.2.2 k hk

/-- Witness for C2 at the concrete world `wEnv` with hop limit 1: depth of
the queued about-page is within bound, the seed is visited, a depth-1
head queues nothing, the queued about-page is itself visited, and the
keyword-matching about anchor of the seed page is enqueued at depth 1. -/
theorem c2_witness :
    (("http://a.com/about", 1) : String × Nat).2 ≤ 1 ∧
    "http://a.com" ∈ (scrape_core wEnv "http://a.com" 1 2).visited ∧
    (crawlStep wEnv 1 ((wEnv.urlparse "http://a.com").netloc)
      { visited := [], frontier := [("http://u.com", 1)], collected := [],
        log := [] }).frontier = [] ∧
    "http://a.com/about" ∈ (scrape_core wEnv "http://a.com" 1 (1 + 1)).visited ∧
    (wEnv.urljoin "http://a.com" (Anchor.href ⟨"/about", "About"⟩), 1) ∈
      (scrape_core wEnv "http://a.com" 1 1).frontier ∧
    wEnv.urljoin "http://a.com" (Anchor.href ⟨"/about", "About"⟩) ∈
      (scrape_core wEnv "http://a.com" 1 (1 + 1)).visited := by
  have h := c2_one_hop wEnv 1 (by decide) "http://a.com"
  have hmem : (("http://a.com/about", 1) : String × Nat) ∈
      (scrape_core wEnv "http://a.com" 1 1).frontier := by decide
  have hcomplete := h.2.2.2.2 wPageSeed (by decide) rfl ⟨"/about", "About"⟩
    (by decide) (by decide) (by decide) (by decide) (by decide) (by decide)
  refine ⟨h.1 1 ("http://a.com/about", 1) hmem, h.2.1 (by decide) 2 (by decide),
    h.2.2.1 _ "http://u.com" 1 [] rfl (by decide), ?_, hcomplete.1, ?_⟩
  · exact (h.2.2.2.1 ("http://a.com/about", 1) hmem).2.2.2 1 (by decide)
  · exact hcomplete.2 1 (by decide)

/-- C3 counterexample: on the exact text `logo@site.com/pic.png` the
extractor does return an e-mail derived from that token — the regex match
stops before `/pic.png`, so the image-extension filter never sees the
image suffix and `logo@site.com` is accepted. -/
theorem c3_counterexample :
    find_emails_on_page [] ("logo@site.com/pic.png".toList) =
      ["logo@site.com".toList] ∧
    find_emails_on_page [] ("logo@site.com/pic.png".toList) ≠ [] := by
  decide

/-- C3 amended: `admin@example.com` is excluded by the placeholder-domain
filter, but `logo@site.com/pic.png` is not excluded by filtering: the
match ends before the slash and the truncated address `logo@site.com` is
returned.  The image-extension filter only excludes candidates carrying
the extension inside the matched text itself, such as `logo@site.png`. -/
theorem c3_amended (url : List Char) :
    find_emails_on_page url ("admin@example.com".toList) = [] ∧
    find_emails_on_page url ("logo@site.com/pic.png".toList) =
      ["logo@site.com".toList] ∧
    find_emails_on_page url ("logo@site.png".toList) = [] := by
  exact ⟨rfl, rfl, rfl⟩

/-- C4: an exception-free task run writes an artifact with the header row
`Website,Emails Found` followed by exactly one data row per submitted
site, in input order; a site whose crawl found e-mails shows them sorted
and comma-joined, and a site with none shows the sentinel. -/
theorem c4_artifact (env : Env) (fuel : Nat) (task_id : String)
    (task : TaskRecord) (websites : List String) :
    (run_scraping_task_thread env fuel task_id task websites none).2 =
      some (["Website", "Emails Found"] ::
        websites.map (fun w =>
          [w, if !(scrape_website_emails_for_task env w MAX_DEPTH fuel).isEmpty then
                emailsString (scrape_website_emails_for_task env w MAX_DEPTH fuel)
              else NO_EMAILS_SENTINEL])) ∧
    ∀ art : List (List String),
      (run_scraping_task_thread env fuel task_id task websites none).2 = some art →
      art.length = websites.length + 1 := by
  have hmain : (run_scraping_task_thread env fuel task_id task websites none).2 =
      some (["Website", "Emails Found"] ::
        websites.map (fun w =>
          [w, if !(scrape_website_emails_for_task env w MAX_DEPTH fuel).isEmpty then
                emailsString (scrape_website_emails_for_task env w MAX_DEPTH fuel)
              else NO_EMAILS_SENTINEL])) := by
    show some (writeCsv (processSites env fuel websites)) = _
    rw [processSites_eq]
    unfold writeCsv
    rw [List.map_map]
    rfl
  constructor
  · exact hmain
  · intro art hart
    rw [hmain] at hart
    injection hart with hart'
    rw [← hart']
    simp

/-- Witness for C4: the artifact of a concrete one-site run has the header
and one data row. -/
theorem c4_witness :
    (run_scraping_task_thread wEnv 10 "tid" (newTask ["http://a.com"])
        ["http://a.com"] none).2 =
      some [["Website", "Emails Found"], ["http://a.com", "c@a.com, d@a.com"]] ∧
    ([["Website", "Emails Found"],
      ["http://a.com", "c@a.com, d@a.com"]] : List (List String)).length =
      ["http://a.com"].length + 1 := by
  have h := c4_artifact wEnv 10 "tid" (newTask ["http://a.com"]) ["http://a.com"]
  have hconcrete : (run_scraping_task_thread wEnv 10 "tid" (newTask ["http://a.com"])
      ["http://a.com"] none).2 =
      some [["Website", "Emails Found"], ["http://a.com", "c@a.com, d@a.com"]] := by
    rw [h.1]
    rfl
  exact ⟨hconcrete, h.2 _ hconcrete⟩

/-- C5: a stream observer with cursor starting at `-1` receives, over any
monotone snapshot sequence, the log lines exactly once, in order, with no
gaps (the emitted payloads are an initial segment of the final snapshot's
log); and an observer connecting when the task is already Complete still
receives the full backlog followed by the single terminal complete event
carrying the artifact reference, after which the stream ends. -/
theorem c5_stream (tid : String) :
    (∀ snaps : List TaskRecord, snaps ≠ [] → MsgChain snaps →
      dataPayloads (progress_stream tid (snaps.map some) (-1)) <+:
        (snaps.getLastD emptyRecord).progress_messages) ∧
    (∀ t : TaskRecord, t.status = TaskStatus.complete →
      progress_stream tid [some t] (-1) =
        t.progress_messages.map StreamEvent.data ++
          [StreamEvent.completeEvt (t.filename.getD "")]) := by
  constructor
  · intro snaps hne hchain
    have h := stream_payloads tid snaps 0 hne hchain (Nat.zero_le _)
    obtain ⟨k, hk⟩ := h
    have hk0 : dataPayloads (progress_stream tid (snaps.map some) (-1)) =
        ((snaps.getLastD emptyRecord).progress_messages).take k := by
      have hc : ((0 : Nat) : Int) - 1 = (-1 : Int) := by decide
      rw [← hc]
      rw [hk]
      rw [List.drop_zero]
    rw [hk0]
    exact ⟨((snaps.getLastD emptyRecord).progress_messages).drop k,
      List.take_append_drop k _⟩
  · intro t h
    exact progress_stream_terminal_complete tid t h

/-- Witness for C5: over the concrete snapshots `wRec1, wRec2` the
payloads are an initial segment of the final log, and a late observer of
the completed `wRec2` receives backlog plus the complete event. -/
theorem c5_witness :
    dataPayloads (progress_stream "t" ([wRec1, wRec2].map some) (-1)) <+:
      ([wRec1, wRec2].getLastD emptyRecord).progress_messages ∧
    progress_stream "t" [some wRec2] (-1) =
      wRec2.progress_messages.map StreamEvent.data ++
        [StreamEvent.completeEvt (wRec2.filename.getD "")] := by
  have h := c5_stream "t"
  refine ⟨h.1 [wRec1, wRec2] (by simp) ?_, h.2 wRec2 rfl⟩
  refine List.chain'_cons.mpr ⟨⟨["m2"], by decide⟩, ?_⟩
  simp

/-- C6: when an exception escapes the whole batch run, the record moves to
Error carrying the exception's description, the runner terminates there
(no artifact is produced and the artifact reference is untouched), and an
observer of the final record receives the backlog and exactly one
terminal error event carrying that description. -/
theorem c6_fatal_error (env : Env) (fuel : Nat) (task_id : String)
    (task : TaskRecord) (websites : List String) (e : String) :
    (run_scraping_task_thread env fuel task_id task websites (some e)).1.status =
      TaskStatus.error ∧
    (run_scraping_task_thread env fuel task_id task websites (some e)).1.error_message =
      some e ∧
    (run_scraping_task_thread env fuel task_id task websites (some e)).2 = none ∧
    (run_scraping_task_thread env fuel task_id task websites (some e)).1.filename =
      task.filename ∧
    (run_scraping_task_thread env fuel task_id task websites (some e)).1.progress_messages =
      task.progress_messages ++ [s!"A critical error occurred: {e}"] ∧
    progress_stream task_id
        [some (run_scraping_task_thread env fuel task_id task websites (some e)).1] (-1) =
      (run_scraping_task_thread env fuel task_id task websites
        (some e)).1.progress_messages.map StreamEvent.data ++
        [StreamEvent.errorEvt e] := by
  refine ⟨rfl, rfl, rfl, rfl, rfl, ?_⟩
  rw [progress_stream_terminal_error task_id _ rfl]
  rfl

/-- C7 counterexample: the href `mailto:` has no address segment, yet the
page-text builder logs no warning and does not skip the href — it
contributes the empty token (a lone separating space). -/
theorem c7_counterexample :
    buildPageText "http://a.com"
        { text := [], anchors := [{ href := "mailto:", text := "" }] } =
      ([' '], []) := by
  decide

/-- C7 amended: the warning-and-skip handler for a mailto href missing its
address segment exists in the source but is unreachable: every href
beginning with `mailto:` splits into at least two pieces, so an address
segment (possibly empty) is always extracted, no warning is ever logged
from this path, and the crawl continues in all cases. -/
theorem c7_amended :
    (∀ (current_url : String) (page : Page),
      (buildPageText current_url page).2 = []) ∧
    (∀ href : List Char, mailtoSep.isPrefixOf href = true →
      (mailtoToken href).isSome = true) := by
  constructor
  · intro current_url page
    exact buildPageText_no_warn current_url page
  · intro href h
    exact mailtoToken_isSome h

/-- Witness for C7 (amended): the concrete empty-address href. -/
theorem c7_witness :
    (buildPageText "http://a.com"
      { text := [], anchors := [{ href := "mailto:", text := "" }] }).2 = [] ∧
    (mailtoToken ("mailto:".toList)).isSome = true := by
  have h := c7_amended
  exact ⟨h.1 "http://a.com" _, h.2 ("mailto:".toList) (by decide)⟩

/-- C8: the download endpoint rejects, for every state of the filesystem
(so before any filesystem access), the two concrete traversal names and
in general every name with a parent-directory segment or an absolute-path
prefix; and it answers 404 when the name is clean but the file does not
exist in the artifact directory. -/
theorem c8_download (isfile : String → Bool) (filename : String) :
    download_file isfile "../../etc/passwd" = DownloadResult.invalidFilename ∧
    download_file isfile "/etc/passwd" = DownloadResult.invalidFilename ∧
    (hasParentSegment filename = true ∨ "/".toList.isPrefixOf filename.toList = true →
      download_file isfile filename = DownloadResult.invalidFilename) ∧
    (containsSub "..".toList filename.toList = false →
      "/".toList.isPrefixOf filename.toList = false →
      isfile (TEMP_DIR ++ "/" ++ filename) = false →
      download_file isfile filename = DownloadResult.notFoundResp) := by
  refine ⟨rfl, rfl, ?_, ?_⟩
  · intro h
    have hcond : (containsSub "..".toList filename.toList ||
        "/".toList.isPrefixOf filename.toList) = true := by
      rcases h with h | h
      · have hmem : "..".toList ∈ pySplit '/' filename.toList := mem_of_contains h
        rw [containsSub_of_inf (mem_pySplit_inf hmem)]
        rfl
      · rw [h]
        simp
    unfold download_file
    rw [if_pos hcond]
  · intro h1 h2 h3
    unfold download_file
    rw [if_neg (by rw [h1, h2]; simp), if_pos (by rw [h3]; rfl)]

/-- Witness for C8: a name with a parent-directory segment is rejected,
and a clean but missing name gets the 404 answer. -/
theorem c8_witness :
    download_file (fun _ => true) "a/../b" = DownloadResult.invalidFilename ∧
    download_file (fun _ => false) "x.csv" = DownloadResult.notFoundResp := by
  exact ⟨(c8_download (fun _ => true) "a/../b").2.2.1 (Or.inl (by decide)),
    (c8_download (fun _ => false) "x.csv").2.2.2 (by decide) (by decide) rfl⟩

/-- C9: the extractor's result depends only on the page content; the
`url` argument has no influence at all (the two calls are definitionally
the same computation). -/
theorem c9_url_noninterference (url1 url2 content : List Char) :
    find_emails_on_page url1 content = find_emails_on_page url2 content := rfl

/-- C10: the extractor equals its simplified variant on every input: the
space, at-sign-count, domain-dot, final-label and quote filter branches
never reject a regex match, because every match already has the shape
`local@domain.tld` with the right character classes; only the
image-extension, placeholder and length filters can exclude a match. -/
theorem c10_filter_redundancy (url content : List Char) :
    find_emails_on_page url content = find_emails_simplified url content := by
  have h : ((findAll content).dedup).filterMap keepEmail =
      ((findAll content).dedup).filterMap keepEmailSimplified := by
    apply List.filterMap_congr
    intro m hm
    exact keepEmail_eq_simplified (findAll_shape (List.mem_dedup.mp hm))
  show ((findAll content).dedup.filterMap keepEmail).dedup =
    ((findAll content).dedup.filterMap keepEmailSimplified).dedup
  rw [h]

end Scraper
